import Mathlib

/-!
Verification development for the nuxt4-scaffolder CLI (src/index.js).

The scaffolder has three verifiable cores:
* the configuration patcher: regex/text surgery on nuxt.config.ts
  (tailwind import prepend, css/vite injection, modules-array merge,
  shadcn block insert);
* the layout inspector/migrator: directory checks and fs-extra moves
  reorganizing the project tree into app/;
* the pipeline control flow: one outer try/catch around the whole run,
  with three inner try/catch blocks that warn and continue.

Documents are modelled as lists of characters, the filesystem as a finite
list of files (path, content) plus a list of explicitly created
directories, and the pipeline as a step list with per-step guardedness.
-/

namespace Scaffolder

/-! ### Configuration patcher: text model -/

/-- Whitespace test, modelling the characters a JS regex class \s matches
among those that occur in these configuration documents. -/
def isWs (c : Char) : Bool := c = ' ' || c = '\t' || c = '\n' || c = '\r'

/-- Characters stripped from the ends of a module token by
`.trim().replace(...)` in src/index.js line 170: quotes and whitespace. -/
def isQW (c : Char) : Bool := c = '\x27' || c = '\x22' || isWs c

/-- Match a literal pattern at the head of a string; on success return the
remainder after the pattern. -/
def eatLit : List Char → List Char → Option (List Char)
  | [], s => some s
  | _ :: _, [] => none
  | p :: ps, c :: cs => if c = p then eatLit ps cs else none

/-- Consume characters up to the first closing square bracket, as the regex
piece matching any run of non-bracket characters followed by a bracket does
(src/index.js line 167).  Returns (inside, after) or none when no closing
bracket exists. -/
def takeTill : List Char → Option (List Char × List Char)
  | [] => none
  | c :: cs =>
    if c = ']' then some ([], cs)
    else
      match takeTill cs with
      | none => none
      | some (i, r) => some (c :: i, r)

/-- The literal word the modules regex starts with. -/
def modulesLit : List Char := "modules".toList

/-- The pieces of one match of the modules-array regex of src/index.js
lines 167 and 177: whitespace before and after the colon, the text inside
the brackets, and the remainder of the document after the match. -/
structure MatchParts where
  ws1 : List Char
  ws2 : List Char
  inner : List Char
  rest : List Char
deriving DecidableEq

/-- Stage of the anchored regex match after the colon: optional whitespace,
an opening bracket, then the bracketed contents. -/
def matchAfterColon (w1 s3 : List Char) : Option MatchParts :=
  match s3.dropWhile isWs with
  | [] => none
  | c :: s5 =>
    if c = '[' then
      match takeTill s5 with
      | some (inner, rest) => some ⟨w1, s3.takeWhile isWs, inner, rest⟩
      | none => none
    else none

/-- Stage of the anchored regex match after the literal word: optional
whitespace then a colon. -/
def matchAfterMods (s1 : List Char) : Option MatchParts :=
  match s1.dropWhile isWs with
  | [] => none
  | c :: s3 => if c = ':' then matchAfterColon (s1.takeWhile isWs) s3 else none

/-- Anchored match of the modules-array regex at the head of `s`. -/
def matchAt (s : List Char) : Option MatchParts :=
  match eatLit modulesLit s with
  | none => none
  | some s1 => matchAfterMods s1

/-- Leftmost match of the modules-array regex: the JS `String.replace` with
a non-global regex rewrites exactly the first match.  Returns the text
before the match and the match pieces. -/
def findFirst : List Char → Option (List Char × MatchParts)
  | [] => none
  | c :: cs =>
    match matchAt (c :: cs) with
    | some m => some ([], m)
    | none =>
      match findFirst cs with
      | some (p, m) => some (c :: p, m)
      | none => none

/-- The full text of a match, reassembled from its pieces. -/
def matchText (m : MatchParts) : List Char :=
  modulesLit ++ m.ws1 ++ ':' :: m.ws2 ++ '[' :: m.inner ++ [']']

/-- Drop leading and trailing quote/whitespace characters, as
`.trim().replace(/^[..]+|[..]+$/g, "")` does on each module token
(src/index.js line 170). -/
def stripEnds (s : List Char) : List Char :=
  ((s.dropWhile isQW).reverse.dropWhile isQW).reverse

/-- Split on commas, as JS `String.split(",")` (an empty string yields one
empty piece). -/
def splitComma : List Char → List (List Char)
  | [] => [[]]
  | c :: cs =>
    match splitComma cs with
    | [] => [[]]
    | t :: ts => if c = ',' then [] :: t :: ts else (c :: t) :: ts

/-- Parse the bracketed contents of the modules array into tokens
(src/index.js lines 168-170). -/
def parseMods (inner : List Char) : List (List Char) :=
  (splitComma inner).map stripEnds

/-- Wrap one module token in single quotes (src/index.js line 172). -/
def quoteTok (t : List Char) : List Char := '\x27' :: (t ++ ['\x27'])

/-- Re-serialize the module tokens, quoted and joined by a comma and a
space (src/index.js line 172). -/
def renderMods : List (List Char) → List Char
  | [] => []
  | [t] => quoteTok t
  | t :: t2 :: ts => quoteTok t ++ ',' :: ' ' :: renderMods (t2 :: ts)

/-- Append the module name when it is not yet present (src/index.js
line 171). -/
def mergeList (l : List (List Char)) (name : List Char) : List (List Char) :=
  if name ∈ l then l else l ++ [name]

/-- The literal text opening the re-serialized modules array. -/
def modulesOpen : List Char := "modules: [".toList

/-- `mergeIntoModuleList`: locate the first modules-array match, parse its
contents, append the module name if absent, re-serialize
(src/index.js lines 167-173).  A document without a match is returned
unchanged, because JS `String.replace` without a match is the identity. -/
def mergeIntoModuleList (doc name : List Char) : List Char :=
  match findFirst doc with
  | none => doc
  | some (pre, m) =>
    pre ++ modulesOpen ++ renderMods (mergeList (parseMods m.inner) name) ++ ']' :: m.rest

/-- Leftmost occurrence of a literal pattern: the text before it and the
remainder after it. -/
def findLit (pat : List Char) : List Char → Option (List Char × List Char)
  | [] =>
    match eatLit pat [] with
    | some r => some ([], r)
    | none => none
  | c :: cs =>
    match eatLit pat (c :: cs) with
    | some r => some ([], r)
    | none =>
      match findLit pat cs with
      | some (p, r) => some (c :: p, r)
      | none => none

/-- Substring test, as JS `String.includes`. -/
def containsSub (pat s : List Char) : Bool := (findLit pat s).isSome

/-- `ensureImport`: prepend the import line unless the document already
contains it (src/index.js lines 148-151). -/
def ensureImport (doc imp : List Char) : List Char :=
  if containsSub imp doc then doc else imp ++ '\n' :: doc

/-- `insertKeyBlockIfAbsent`: when the key text occurs nowhere in the
document, insert the block right after the first modules-array match,
keeping the matched text itself (src/index.js lines 175-191).  With no
match the replace is the identity. -/
def insertKeyBlockIfAbsent (doc key block : List Char) : List Char :=
  if containsSub key doc then doc
  else
    match findFirst doc with
    | none => doc
    | some (pre, m) => pre ++ matchText m ++ block ++ m.rest

/-- The opening call text the css/vite injection replaces
(src/index.js line 141). -/
def nuxtCallLit : List Char := "defineNuxtConfig(\x7b".toList

/-- The default option lines the css/vite injection inserts right after the
opening call text (src/index.js lines 142-145). -/
def cssViteDefaults : List Char :=
  ("\n  css: [\x27~/app/assets/css/tailwind.css\x27],\n  vite: \x7b plugins: [tailwindcss()] \x7d,\n").toList

/-- `ensureTopLevelDefaults` as implemented: rewrite the first occurrence
of the opening call text, re-emitting it followed by the default option
lines (src/index.js lines 140-146).  The source performs this replace
unconditionally. -/
def ensureTopLevelDefaults (doc : List Char) : List Char :=
  match findLit nuxtCallLit doc with
  | none => doc
  | some (pre, rest) => pre ++ nuxtCallLit ++ cssViteDefaults ++ rest

/-- A well-formed module token: no comma, no closing bracket, and already
stripped at both ends.  Every module name the scaffolder merges satisfies
this. -/
def tokenOk (t : List Char) : Bool :=
  decide (',' ∉ t) && decide (']' ∉ t) && decide (stripEnds t = t)

/-- The tailwind import line the scaffolder prepends
(src/index.js lines 148-149). -/
def tailwindImportLine : List Char :=
  ("import tailwindcss from \x27@tailwindcss/vite\x27").toList

/-- The module name merged into the modules array (src/index.js line 171). -/
def shadcnName : List Char := "shadcn-nuxt".toList

/-- The key text whose presence suppresses the shadcn block insert
(src/index.js line 175). -/
def shadcnKey : List Char := "shadcn:".toList

/-- The shadcn configuration block appended after the modules array
(src/index.js lines 178-189). -/
def shadcnBlock : List Char :=
  (",\n  shadcn: \x7b\n    /**\n     * Prefix for all the imported component\n     */\n    prefix: \x27\x27,\n    /**\n     * Directory that the component lives in.\n     * @default \x22app/components/ui\x22\n     */\n    componentDir: \x27app/components/ui\x27\n  \x7d").toList

/-- Patch failure values. -/
inductive PatchErr
  | keyNotFound
deriving DecidableEq

/-- Modelled from the spec: the spec section 4.2 requires
`mergeIntoModuleList` to fail with an error, and not to apply, when the
designated array-valued key is not found; src/index.js has no such error
path, so this contract variant exists only for comparison with the
implemented operation. -/
def mergeIntoModuleListSpec (doc name : List Char) : Except PatchErr (List Char) :=
  match findFirst doc with
  | none => Except.error PatchErr.keyNotFound
  | some _ => Except.ok (mergeIntoModuleList doc name)

/-- The module list a document currently declares: the parsed contents of
the first modules-array match, or an empty list when there is no match. -/
def modListOf (doc : List Char) : List (List Char) :=
  match findFirst doc with
  | none => []
  | some (_, m) => parseMods m.inner

/-- A marker substring of the injected defaults. -/
def cssMarker : List Char := "css:".toList

/-- A configuration document with an opening call but no modules key. -/
def noKeyDoc : List Char := ("export default defineNuxtConfig(\x7b\x7d)").toList

/-- A small configuration document with a populated modules array. -/
def sampleDoc : List Char :=
  ("export default defineNuxtConfig(\x7b\n  modules: [\x27@nuxt/image\x27, \x27pinia\x27],\n\x7d)").toList

/-- A document whose module list holds exactly a and b. -/
def docAB : List Char := ("modules: [\x27a\x27,\x27b\x27]").toList

/-- The scenario document of the spec: two image/icon entries. -/
def docIcons : List Char := ("modules: [\x27@x/image\x27,\x27@x/icon\x27]").toList

/-! ### Filesystem model

The scaffolder touches the project tree through fs-extra and fs/promises.
A filesystem state is a finite list of files (path, content) together with
a list of directories created explicitly; ancestors of any recorded entry
implicitly exist.  Paths are segment lists relative to the project root. -/

/-- A path, as a list of segments relative to the project root. -/
abbrev FPath := List String

/-- Path-prefix test: does `d` lead to (or equal) `p`. -/
def pfx : FPath → FPath → Bool
  | [], _ => true
  | _ :: _, [] => false
  | a :: as, b :: bs => decide (a = b) && pfx as bs

/-- A filesystem state. -/
structure FS where
  files : List (FPath × List Char)
  dirs : List FPath
deriving DecidableEq

/-- `fse.pathExists`: some recorded file or directory lies at or below the
path. -/
def pathExists (fs : FS) (p : FPath) : Bool :=
  fs.dirs.any (fun d => pfx p d) || fs.files.any (fun f => pfx p f.1)

/-- A file is recorded at exactly this path. -/
def fileExists (fs : FS) (p : FPath) : Bool :=
  fs.files.any (fun f => decide (f.1 = p))

/-- `fs.readFile`: content of the file at the path (empty when absent). -/
def readFileFs (fs : FS) (p : FPath) : List Char :=
  (((fs.files.find? (fun f => decide (f.1 = p))).map Prod.snd).getD [])

/-- `fs.writeFile`: create or overwrite the file at the path. -/
def writeFileFs (fs : FS) (p : FPath) (c : List Char) : FS :=
  { fs with files := (p, c) :: fs.files.filter (fun f => !decide (f.1 = p)) }

/-- `fse.ensureDir`: record the directory when nothing exists there yet. -/
def ensureDir (fs : FS) (p : FPath) : FS :=
  if pathExists fs p then fs else { fs with dirs := p :: fs.dirs }

/-- Is `p` strictly below directory `d`. -/
def strictUnder (d p : FPath) : Bool := pfx d p && decide (d.length < p.length)

/-- `fs.readdir(p).length > 0`: the directory has at least one entry. -/
def dirNonEmpty (fs : FS) (p : FPath) : Bool :=
  fs.dirs.any (fun d => strictUnder p d) || fs.files.any (fun f => strictUnder p f.1)

/-- Remove everything at or below the path. -/
def removeTree (fs : FS) (p : FPath) : FS :=
  { files := fs.files.filter (fun f => !pfx p f.1),
    dirs := fs.dirs.filter (fun d => !pfx p d) }

/-- Rename the subtree at `src` to `dest`. -/
def renameTree (fs : FS) (src dest : FPath) : FS :=
  { files := fs.files.map (fun f =>
      if pfx src f.1 then (dest ++ f.1.drop src.length, f.2) else f),
    dirs := fs.dirs.map (fun d =>
      if pfx src d then dest ++ d.drop src.length else d) }

/-- Models the documented behavior of fs-extra `move` with
`overwrite: true` (src/index.js line 255): when the destination exists it
is removed first, then the source is renamed onto the destination.
fs-extra does not merge directory contents. -/
def fseMove (fs : FS) (src dest : FPath) : FS :=
  let fs1 := if pathExists fs dest then removeTree fs dest else fs
  renameTree fs1 src dest

/-- The fixed migratable subdirectory names (src/index.js lines 240-247). -/
def migrateItems : List String :=
  ["components", "composables", "pages", "layouts", "lib", "stores"]

/-- One iteration of the reorganization loop (src/index.js lines 248-257):
always ensure the destination directory below app/, then move the source
onto it when the source exists. -/
def migrateEntry (fs : FS) (item : String) : FS :=
  let dest : FPath := ["app", item]
  let fs1 := ensureDir fs dest
  if pathExists fs1 [item] then fseMove fs1 [item] dest else fs1

/-- The whole reorganization loop over the fixed item list. -/
def reorganize (fs : FS) : FS := migrateItems.foldl migrateEntry fs

/-- The target root subdirectory. -/
def appDirP : FPath := ["app"]

/-- Step 8 of the script (src/index.js lines 220-258): ensure app/ exists,
check its existence and non-emptiness, then either skip (true) or run the
reorganization loop (false). -/
def reorganizeStep (fs : FS) : FS × Bool :=
  let fs1 := ensureDir fs appDirP
  let isN4 := pathExists fs1 appDirP
  let hasContents := dirNonEmpty fs1 appDirP
  if isN4 && hasContents then (fs1, true) else (reorganize fs1, false)

/-- Outcome of a guarded template write. -/
inductive WriteOutcome
  | CREATED
  | SKIPPED_EXISTING
deriving DecidableEq

/-- The guarded template write used for app.vue, the default layout, the
index page, the example store and the button existence check
(src/index.js lines 286-289, 306-311, 329-334, 350-355, 364-365): the
write happens only when nothing exists at the path. -/
def writeIfAbsent (fs : FS) (p : FPath) (c : List Char) : FS × WriteOutcome :=
  if pathExists fs p then (fs, WriteOutcome.SKIPPED_EXISTING)
  else (writeFileFs fs p c, WriteOutcome.CREATED)

/-- The tailwind stylesheet path (src/index.js lines 131-136). -/
def tailwindCssPath : FPath := ["app", "assets", "css", "tailwind.css"]

/-- The tailwind stylesheet content (src/index.js line 137). -/
def tailwindCssContent : List Char := ("@import \x22tailwindcss\x22;").toList

/-- Step 4 of the script (src/index.js lines 130-137): ensure app/ and
app/assets/css, then write the tailwind stylesheet. -/
def tailwindStep (fs : FS) : FS :=
  writeFileFs (ensureDir (ensureDir fs appDirP) ["app", "assets", "css"])
    tailwindCssPath tailwindCssContent

/-- The configuration file path at the project root. -/
def configPathP : FPath := ["nuxt.config.ts"]

/-- The index page path. -/
def indexPageP : FPath := ["app", "pages", "index.vue"]

/-- The marker the button fallback greps the index page for
(src/index.js line 383). -/
def buttonMarker : List Char := "<Button>Click Me!</Button>".toList

/-- The index page template written by the scaffolder
(src/index.js lines 317-327). -/
def indexVueContent : List Char :=
  ("<template>\n  <div class=\x22container mx-auto pt-6\x22>\n    <h1 class=\x22text-4xl font-semibold text-pink-600\x22>Hello Nuxt 4!</h1>\n    <Button>Click Me!</Button>\n  </div>\n</template>\n\n<script lang=\x22ts\x22 setup>\nimport \x7b Button \x7d from \x22~/components/ui/button\x22;\n</script>\n").toList

/-- The replacement index page written by the button-failure fallback
(src/index.js lines 384-388). -/
def updatedIndexVue : List Char :=
  ("<template>\n  <div class=\x22container mx-auto pt-6\x22>\n    <h1 class=\x22text-4xl font-semibold text-pink-600\x22>Hello Nuxt 4!</h1>\n  </div>\n</template>").toList

/-- The shadcn button failure fallback (src/index.js lines 383-390): when
the index page is absent, or its current content contains the button
marker, overwrite it with the button-free template.  This step reads the
existing content to decide. -/
def shadcnButtonFallback (fs : FS) : FS :=
  if !pathExists fs indexPageP || containsSub buttonMarker (readFileFs fs indexPageP) then
    writeFileFs fs indexPageP updatedIndexVue
  else fs

/-- A filesystem where app/components already holds a file and the legacy
components/ directory holds another, non-colliding file. -/
def fsMoveDemo : FS :=
  ⟨[(["app", "components", "keep.vue"], []), (["components", "new.vue"], [])],
   [["app"], ["app", "components"], ["components"]]⟩

/-- A legacy-layout filesystem: a populated pages/ directory at the root
and no target subdirectory. -/
def fsLegacy : FS := ⟨[(["pages", "index.vue"], [])], [["pages"]]⟩

/-- A target-layout filesystem: a populated app/ subdirectory. -/
def fsTarget : FS := ⟨[(["app", "app.vue"], [])], [["app"]]⟩

/-- A filesystem whose index page is the scaffolded template containing the
button marker. -/
def fsButton : FS := ⟨[(indexPageP, indexVueContent)], [["app"], ["app", "pages"]]⟩

/-! ### Pipeline model

src/index.js runs one async function whose body is a single try block;
the catch prints the error and calls process.exit(1).  Three inner
try/catch blocks (tsconfig path mapping, shadcn-vue init, shadcn button
add) swallow their step failure, warn and continue. -/

/-- The steps of the scaffolding pipeline, in source order. -/
inductive Step
  | nuxiInit
  | pkgRename
  | cfgFormat
  | installDeps
  | tsconfigPaths
  | tailwindCss
  | cssVite
  | moduleAddShadcn
  | mergeShadcnCfg
  | prettierFmt
  | shadcnVueInit
  | restructure
  | nuxiPrep
  | appVueStep
  | defaultLayout
  | indexPageStep
  | piniaStore
  | shadcnButtonAdd
deriving DecidableEq

/-- Declaration order of the steps (src/index.js lines 32-392). -/
def pipelineSteps : List Step :=
  [Step.nuxiInit, Step.pkgRename, Step.cfgFormat, Step.installDeps,
   Step.tsconfigPaths, Step.tailwindCss, Step.cssVite, Step.moduleAddShadcn,
   Step.mergeShadcnCfg, Step.prettierFmt, Step.shadcnVueInit,
   Step.restructure, Step.nuxiPrep, Step.appVueStep, Step.defaultLayout,
   Step.indexPageStep, Step.piniaStore, Step.shadcnButtonAdd]

/-- Steps wrapped in their own inner try/catch (src/index.js lines 73-125,
206-218, 370-391): a failure there is warned about and the run continues.
Every other step failure propagates to the outer catch. -/
def isGuarded : Step → Bool
  | Step.tsconfigPaths => true
  | Step.shadcnVueInit => true
  | Step.shadcnButtonAdd => true
  | _ => false

/-- The observable outcome of a run. -/
structure RunResult where
  exitCode : Nat
  executed : List Step
  warned : List Step
  printedError : Bool
deriving DecidableEq

/-- Run the steps in order against a failure assignment: a failing guarded
step is recorded as warned and the run continues; a failing unguarded step
aborts, skipping every later step.  Returns (steps attempted, steps
warned, aborted). -/
def runSteps (fails : Step → Bool) : List Step → List Step × List Step × Bool
  | [] => ([], [], false)
  | s :: rest =>
    if fails s then
      if isGuarded s then
        let r := runSteps fails rest
        (s :: r.1, s :: r.2.1, r.2.2)
      else ([s], [], true)
    else
      let r := runSteps fails rest
      (s :: r.1, r.2.1, r.2.2)

/-- Run the whole pipeline: an abort prints the error and exits 1
(src/index.js lines 401-414); otherwise the process ends normally with
exit code 0. -/
def runPipeline (fails : Step → Bool) : RunResult :=
  let r := runSteps fails pipelineSteps
  { exitCode := if r.2.2 then 1 else 0
    executed := r.1
    warned := r.2.1
    printedError := r.2.2 }

/-! ### Lemmas about the literal matcher -/

theorem eatLit_eq_some : ∀ (pat s r : List Char), eatLit pat s = some r ↔ s = pat ++ r := by
  intro pat
  induction pat with
  | nil => intro s r; simp [eatLit]
  | cons p ps ih =>
    intro s r
    cases s with
    | nil => simp [eatLit]
    | cons c cs =>
      by_cases h : c = p
      · subst h; simp [eatLit, ih]
      · simp [eatLit, h]

theorem findLit_inv (pat : List Char) :
    ∀ (s pre rest : List Char), findLit pat s = some (pre, rest) →
      s = pre ++ (pat ++ rest) := by
  intro s
  induction s with
  | nil =>
    intro pre rest h
    cases hp : eatLit pat ([] : List Char) with
    | none => simp [findLit, hp] at h
    | some r =>
      simp only [findLit, hp] at h
      injection h with h3
      injection h3 with h1 h2
      subst h1; subst h2
      simpa using (eatLit_eq_some pat [] r).mp hp
  | cons c cs ih =>
    intro pre rest h
    cases hp : eatLit pat (c :: cs) with
    | some r =>
      simp only [findLit, hp] at h
      injection h with h3
      injection h3 with h1 h2
      subst h1; subst h2
      simpa using (eatLit_eq_some pat (c :: cs) r).mp hp
    | none =>
      cases hf : findLit pat cs with
      | none => simp [findLit, hp, hf] at h
      | some pr =>
        obtain ⟨p, r⟩ := pr
        simp only [findLit, hp, hf] at h
        injection h with h3
        injection h3 with h1 h2
        subst h1; subst h2
        simpa using congrArg (c :: ·) (ih p r hf)

theorem containsSub_of_parts (pat : List Char) :
    ∀ (x y : List Char), containsSub pat (x ++ (pat ++ y)) = true := by
  intro x
  induction x with
  | nil =>
    intro y
    have heat : eatLit pat (([] : List Char) ++ (pat ++ y)) = some y :=
      (eatLit_eq_some _ _ _).mpr (by simp)
    cases pat with
    | nil =>
      cases y with
      | nil => rfl
      | cons c cs => simp [containsSub, findLit, eatLit]
    | cons p ps =>
      simp only [List.nil_append, List.cons_append] at heat ⊢
      simp [containsSub, findLit, heat]
  | cons c cs ih =>
    intro y
    have hgoal : c :: cs ++ (pat ++ y) = c :: (cs ++ (pat ++ y)) := by simp
    rw [hgoal]
    show (findLit pat (c :: (cs ++ (pat ++ y)))).isSome = true
    cases hp : eatLit pat (c :: (cs ++ (pat ++ y))) with
    | some r => simp [findLit, hp]
    | none =>
      have hrec := ih y
      cases hf : findLit pat (cs ++ (pat ++ y)) with
      | none => simp [containsSub, hf] at hrec
      | some pr =>
        obtain ⟨p, r⟩ := pr
        simp [findLit, hp, hf]

theorem containsSub_iff (pat s : List Char) :
    containsSub pat s = true ↔ ∃ x y, s = x ++ (pat ++ y) := by
  constructor
  · intro h
    cases hf : findLit pat s with
    | none => simp [containsSub, hf] at h
    | some pr => exact ⟨pr.1, pr.2, findLit_inv pat s pr.1 pr.2 (by simpa using hf)⟩
  · rintro ⟨x, y, rfl⟩
    exact containsSub_of_parts pat x y

/-! ### Idempotence of ensureImport and insertKeyBlockIfAbsent -/

theorem ensureImport_idem (doc imp : List Char) :
    ensureImport (ensureImport doc imp) imp = ensureImport doc imp := by
  by_cases h : containsSub imp doc = true
  · simp [ensureImport, h]
  · have h' : containsSub imp doc = false := by
      cases hh : containsSub imp doc
      · rfl
      · exact absurd hh h
    have hin : containsSub imp (imp ++ '\n' :: doc) = true := by
      have := containsSub_of_parts imp [] ('\n' :: doc)
      simpa using this
    simp [ensureImport, h', hin]

theorem insertKeyBlockIfAbsent_idem (doc key block : List Char)
    (hb : containsSub key block = true) :
    insertKeyBlockIfAbsent (insertKeyBlockIfAbsent doc key block) key block
      = insertKeyBlockIfAbsent doc key block := by
  by_cases h : containsSub key doc = true
  · simp [insertKeyBlockIfAbsent, h]
  · have h' : containsSub key doc = false := by
      cases hh : containsSub key doc
      · rfl
      · exact absurd hh h
    cases hf : findFirst doc with
    | none => simp [insertKeyBlockIfAbsent, h', hf]
    | some pm =>
      obtain ⟨pre, m⟩ := pm
      obtain ⟨x, y, hxy⟩ := (containsSub_iff key block).mp hb
      have hdoc' : containsSub key (pre ++ (matchText m ++ (block ++ m.rest))) = true := by
        subst hxy
        have := containsSub_of_parts key (pre ++ matchText m ++ x) (y ++ m.rest)
        simpa [List.append_assoc] using this
      simp [insertKeyBlockIfAbsent, h', hf, hdoc']

/-! ### Claim C2: behavior when the modules key is missing -/

/-- C2 (amended): when the designated array-valued modules key is not
found, `mergeIntoModuleList` leaves the document unchanged and signals no
error: the replace without a match is a silent no-op. -/
theorem c2_missing_key_silent_noop (doc name : List Char)
    (h : findFirst doc = none) : mergeIntoModuleList doc name = doc := by
  simp [mergeIntoModuleList, h]

theorem c2_missing_key_silent_noop_witness :
    findFirst noKeyDoc = none ∧ mergeIntoModuleList noKeyDoc shadcnName = noKeyDoc :=
  ⟨by decide, c2_missing_key_silent_noop noKeyDoc shadcnName (by decide)⟩

/-- C2 counterexample: on a document without the modules key the
implemented operation returns the document unchanged and continues, while
the claimed contract demands an error; the error value exists only in the
spec-modelled variant. -/
theorem c2_counterexample :
    mergeIntoModuleList noKeyDoc shadcnName = noKeyDoc ∧
    mergeIntoModuleListSpec noKeyDoc shadcnName = Except.error PatchErr.keyNotFound := by
  exact ⟨rfl, rfl⟩

/-! ### Claim C5: the css/vite injection -/

/-- C5 (amended): the css/vite injection rewrites the first occurrence of
the configuration call opening unconditionally; it is a no-op exactly when
the opening text does not occur, and it performs no marker check. -/
theorem c5_defaults_injection (doc : List Char) :
    (findLit nuxtCallLit doc = none → ensureTopLevelDefaults doc = doc) ∧
    (∀ pre rest, findLit nuxtCallLit doc = some (pre, rest) →
      doc = pre ++ (nuxtCallLit ++ rest) ∧
      ensureTopLevelDefaults doc = pre ++ (nuxtCallLit ++ (cssViteDefaults ++ rest))) := by
  constructor
  · intro h
    simp [ensureTopLevelDefaults, h]
  · intro pre rest h
    refine ⟨findLit_inv nuxtCallLit doc pre rest h, ?_⟩
    simp [ensureTopLevelDefaults, h, List.append_assoc]

theorem c5_defaults_injection_witness :
    (findLit nuxtCallLit docAB = none ∧ ensureTopLevelDefaults docAB = docAB) ∧
    (findLit nuxtCallLit noKeyDoc
        = some (("export default ").toList, ("\x7d)").toList) ∧
      noKeyDoc = ("export default ").toList ++ (nuxtCallLit ++ ("\x7d)").toList) ∧
      ensureTopLevelDefaults noKeyDoc
        = ("export default ").toList ++ (nuxtCallLit ++ (cssViteDefaults ++ ("\x7d)").toList))) :=
  ⟨⟨by decide, (c5_defaults_injection docAB).1 (by decide)⟩,
   ⟨by decide,
    (c5_defaults_injection noKeyDoc).2 ("export default ").toList ("\x7d)").toList (by decide)⟩⟩

/-- C5 counterexample: after one injection the document contains the css
marker, yet applying the operation again still changes the document, so it
is not a no-op in the presence of its own markers. -/
theorem c5_counterexample :
    containsSub cssMarker (ensureTopLevelDefaults noKeyDoc) = true ∧
    ensureTopLevelDefaults (ensureTopLevelDefaults noKeyDoc) ≠ ensureTopLevelDefaults noKeyDoc := by
  decide

/-! ### Lemmas about the filesystem model -/

theorem pfx_refl : ∀ p : FPath, pfx p p = true := by
  intro p
  induction p with
  | nil => rfl
  | cons a as ih => simp [pfx, ih]

theorem pfx_append : ∀ p r : FPath, pfx p (p ++ r) = true := by
  intro p
  induction p with
  | nil => intro r; rfl
  | cons a as ih => intro r; simp [pfx, ih]

theorem pfx_cons_inv {a : String} {as l : FPath} (h : pfx (a :: as) l = true) :
    ∃ bs, l = a :: bs ∧ pfx as bs = true := by
  cases l with
  | nil => simp [pfx] at h
  | cons b bs =>
    simp only [pfx, Bool.and_eq_true, decide_eq_true_eq] at h
    exact ⟨bs, by rw [h.1], h.2⟩

theorem strictUnder_self (p : FPath) : strictUnder p p = false := by
  simp [strictUnder]

theorem strictUnder_pfx {d p : FPath} (h : strictUnder d p = true) : pfx d p = true :=
  ((Bool.and_eq_true _ _).mp h).1

theorem ensureDir_files (fs : FS) (p : FPath) : (ensureDir fs p).files = fs.files := by
  unfold ensureDir
  split <;> rfl

theorem pathExists_ensureDir_self (fs : FS) (p : FPath) :
    pathExists (ensureDir fs p) p = true := by
  unfold ensureDir
  split
  · assumption
  · simp [pathExists, pfx_refl]

theorem dirNonEmpty_ensureDir_self (fs : FS) (p : FPath) :
    dirNonEmpty (ensureDir fs p) p = dirNonEmpty fs p := by
  unfold ensureDir
  split
  · rfl
  · simp [dirNonEmpty, strictUnder_self]

theorem pathExists_of_dirNonEmpty (fs : FS) (p : FPath)
    (h : dirNonEmpty fs p = true) : pathExists fs p = true := by
  simp only [dirNonEmpty, Bool.or_eq_true, List.any_eq_true] at h
  simp only [pathExists, Bool.or_eq_true, List.any_eq_true]
  rcases h with ⟨d, hd, hs⟩ | ⟨f, hf, hs⟩
  · exact Or.inl ⟨d, hd, strictUnder_pfx hs⟩
  · exact Or.inr ⟨f, hf, strictUnder_pfx hs⟩

theorem fileExists_mem {fs : FS} {p : FPath} (h : fileExists fs p = true) :
    ∃ c, (p, c) ∈ fs.files := by
  simp only [fileExists, List.any_eq_true, decide_eq_true_eq] at h
  obtain ⟨f, hf, he⟩ := h
  exact ⟨f.2, by rwa [← he, Prod.mk.eta]⟩

theorem pathExists_of_file_under (fs : FS) (p q : FPath)
    (h : fileExists fs q = true) (hp : pfx p q = true) : pathExists fs p = true := by
  obtain ⟨c, hc⟩ := fileExists_mem h
  simp only [pathExists, Bool.or_eq_true, List.any_eq_true]
  exact Or.inr ⟨(q, c), hc, hp⟩

theorem dirNonEmpty_of_file_under (fs : FS) (p q : FPath)
    (h : fileExists fs q = true) (hs : strictUnder p q = true) :
    dirNonEmpty fs p = true := by
  obtain ⟨c, hc⟩ := fileExists_mem h
  simp only [dirNonEmpty, Bool.or_eq_true, List.any_eq_true]
  exact Or.inr ⟨(q, c), hc, hs⟩

theorem fileExists_writeFileFs_self (fs : FS) (p : FPath) (c : List Char) :
    fileExists (writeFileFs fs p c) p = true := by
  simp [fileExists, writeFileFs]

theorem any_filter_keep (l : List (FPath × List Char)) (q p : FPath) (h : q ≠ p) :
    ((l.filter (fun f => !decide (f.1 = q))).any (fun f => decide (f.1 = p)))
      = (l.any (fun f => decide (f.1 = p))) := by
  induction l with
  | nil => rfl
  | cons f l ih =>
    by_cases hf : f.1 = q
    · have e1 : decide (f.1 = q) = true := by rw [hf]; exact decide_eq_true rfl
      have e2 : decide (f.1 = p) = false := by rw [hf]; exact decide_eq_false h
      simp [List.filter_cons, e1, e2, ih]
    · simp [List.filter_cons, hf, ih]

theorem fileExists_writeFileFs_ne (fs : FS) (p q : FPath) (c : List Char)
    (h : q ≠ p) : fileExists (writeFileFs fs q c) p = fileExists fs p := by
  have hqp : decide (q = p) = false := decide_eq_false h
  simp [fileExists, writeFileFs, hqp, any_filter_keep fs.files q p h]

theorem readFileFs_writeFileFs_self (fs : FS) (p : FPath) (c : List Char) :
    readFileFs (writeFileFs fs p c) p = c := by
  simp [readFileFs, writeFileFs, List.find?]

theorem reorganizeStep_skip (fs : FS) (h1 : pathExists fs appDirP = true)
    (h2 : dirNonEmpty fs appDirP = true) : reorganizeStep fs = (fs, true) := by
  simp [reorganizeStep, ensureDir, h1, h2]

/-! ### Claim C9: layout classification -/

/-- C9: with the target subdirectory absent or empty the reorganization
branch runs; with it non-empty the step skips and leaves the filesystem
unchanged. -/
theorem c9_layout_classification :
    (∀ fs : FS, dirNonEmpty fs appDirP = false → pathExists fs ["pages"] = true →
      (reorganizeStep fs).2 = false) ∧
    (∀ fs : FS, dirNonEmpty fs appDirP = true → reorganizeStep fs = (fs, true)) := by
  constructor
  · intro fs h _
    simp [reorganizeStep, dirNonEmpty_ensureDir_self, h]
  · intro fs h
    exact reorganizeStep_skip fs (pathExists_of_dirNonEmpty fs appDirP h) h

theorem c9_layout_classification_witness :
    (dirNonEmpty fsLegacy appDirP = false ∧ pathExists fsLegacy ["pages"] = true ∧
      (reorganizeStep fsLegacy).2 = false) ∧
    (dirNonEmpty fsTarget appDirP = true ∧ reorganizeStep fsTarget = (fsTarget, true)) :=
  ⟨⟨by decide, by decide, c9_layout_classification.1 fsLegacy (by decide) (by decide)⟩,
   ⟨by decide, c9_layout_classification.2 fsTarget (by decide)⟩⟩

/-! ### Claim C10: the tailwind write forces the skip branch -/

/-- C10: for every starting filesystem, once the tailwind step has written
app/assets/css/tailwind.css (and the later script writes touch only
nuxt.config.ts), the reorganization step finds app/ existing and
non-empty, and skips the move loop entirely. -/
theorem c10_tailwind_forces_skip (fs : FS) (cfg1 cfg2 : List Char) :
    fileExists (tailwindStep fs) tailwindCssPath = true ∧
    pathExists
      (ensureDir (writeFileFs (writeFileFs (tailwindStep fs) configPathP cfg1) configPathP cfg2)
        appDirP) appDirP = true ∧
    dirNonEmpty (writeFileFs (writeFileFs (tailwindStep fs) configPathP cfg1) configPathP cfg2)
      appDirP = true ∧
    reorganizeStep (writeFileFs (writeFileFs (tailwindStep fs) configPathP cfg1) configPathP cfg2)
      = (writeFileFs (writeFileFs (tailwindStep fs) configPathP cfg1) configPathP cfg2, true) := by
  have h1 : fileExists (tailwindStep fs) tailwindCssPath = true := by
    unfold tailwindStep
    exact fileExists_writeFileFs_self _ _ _
  have h2 : fileExists
      (writeFileFs (writeFileFs (tailwindStep fs) configPathP cfg1) configPathP cfg2)
      tailwindCssPath = true := by
    rw [fileExists_writeFileFs_ne _ _ _ _ (by decide),
      fileExists_writeFileFs_ne _ _ _ _ (by decide)]
    exact h1
  have h3 : dirNonEmpty
      (writeFileFs (writeFileFs (tailwindStep fs) configPathP cfg1) configPathP cfg2)
      appDirP = true :=
    dirNonEmpty_of_file_under _ _ _ h2 (by decide)
  have h4 : pathExists
      (writeFileFs (writeFileFs (tailwindStep fs) configPathP cfg1) configPathP cfg2)
      appDirP = true :=
    pathExists_of_file_under _ _ _ h2 (by decide)
  exact ⟨h1, pathExists_ensureDir_self _ _, h3, reorganizeStep_skip _ h4 h3⟩

/-! ### Claim C4: guarded template writes and the button fallback -/

/-- C4 (amended): the guarded template writes never change an existing
file and are gated by existence alone; the shadcn button failure fallback,
by contrast, reads the existing index page and overwrites it whenever its
content contains the button marker. -/
theorem c4_write_if_absent_frame :
    (∀ (fs : FS) (p : FPath) (c : List Char), pathExists fs p = true →
      writeIfAbsent fs p c = (fs, WriteOutcome.SKIPPED_EXISTING)) ∧
    (∀ fs : FS, pathExists fs indexPageP = true →
      containsSub buttonMarker (readFileFs fs indexPageP) = true →
      readFileFs (shadcnButtonFallback fs) indexPageP = updatedIndexVue) := by
  constructor
  · intro fs p c h
    simp [writeIfAbsent, h]
  · intro fs h hm
    simp [shadcnButtonFallback, h, hm, readFileFs_writeFileFs_self]

set_option maxRecDepth 40000 in
theorem c4_write_if_absent_frame_witness :
    pathExists fsButton indexPageP = true ∧
    containsSub buttonMarker (readFileFs fsButton indexPageP) = true ∧
    writeIfAbsent fsButton indexPageP [] = (fsButton, WriteOutcome.SKIPPED_EXISTING) ∧
    readFileFs (shadcnButtonFallback fsButton) indexPageP = updatedIndexVue :=
  ⟨by decide, by decide,
   c4_write_if_absent_frame.1 fsButton indexPageP [] (by decide),
   c4_write_if_absent_frame.2 fsButton (by decide) (by decide)⟩

set_option maxRecDepth 40000 in
/-- C4 counterexample: the button-failure fallback changes the content of
an index page that already exists, after reading it, so the materialization
code cited by the claim does not leave every existing file unchanged. -/
theorem c4_counterexample :
    pathExists fsButton indexPageP = true ∧
    readFileFs fsButton indexPageP = indexVueContent ∧
    readFileFs (shadcnButtonFallback fsButton) indexPageP ≠ readFileFs fsButton indexPageP := by
  decide

/-! ### Claim C3: the migration loop -/

theorem pfx_dest_head_ne {item : String} (hne : item ≠ "app") (bs : FPath) :
    pfx ["app", item] (item :: bs) = false := by
  have hd : decide ("app" = item) = false := decide_eq_false (fun hc => hne hc.symm)
  simp [pfx, hd]

theorem mem_removeTree {fs : FS} {p : FPath} {e : FPath × List Char}
    (he : e ∈ fs.files) (hp : pfx p e.1 = false) : e ∈ (removeTree fs p).files := by
  simp [removeTree, List.mem_filter, he, hp]

theorem mem_removeTree_dirs {fs : FS} {p d : FPath}
    (hd : d ∈ fs.dirs) (hp : pfx p d = false) : d ∈ (removeTree fs p).dirs := by
  simp [removeTree, List.mem_filter, hd, hp]

theorem pathExists_of_dir_mem {fs : FS} {p d : FPath}
    (hd : d ∈ fs.dirs) (hp : pfx p d = true) : pathExists fs p = true := by
  simp only [pathExists, Bool.or_eq_true, List.any_eq_true]
  exact Or.inl ⟨d, hd, hp⟩

theorem pathExists_of_file_mem {fs : FS} {p : FPath} {f : FPath × List Char}
    (hf : f ∈ fs.files) (hp : pfx p f.1 = true) : pathExists fs p = true := by
  simp only [pathExists, Bool.or_eq_true, List.any_eq_true]
  exact Or.inr ⟨f, hf, hp⟩

theorem pathExists_move_dest (fs : FS) (item : String) (hne : item ≠ "app")
    (h : pathExists fs [item] = true) :
    pathExists (fseMove fs [item] ["app", item]) ["app", item] = true := by
  simp only [pathExists, Bool.or_eq_true, List.any_eq_true] at h
  unfold fseMove
  rcases h with ⟨d, hd, hp⟩ | ⟨f, hf, hp⟩
  · obtain ⟨bs, rfl, _⟩ := pfx_cons_inv hp
    have hsurv : (item :: bs) ∈
        (if pathExists fs ["app", item] then removeTree fs ["app", item] else fs).dirs := by
      split
      · exact mem_removeTree_dirs hd (pfx_dest_head_ne hne bs)
      · exact hd
    have hp2 : pfx [item] (item :: bs) = true := by simp [pfx]
    refine pathExists_of_dir_mem (d := ["app", item] ++ bs) ?_ (pfx_append _ _)
    show ["app", item] ++ bs ∈ List.map _ _
    exact List.mem_map.mpr ⟨item :: bs, hsurv, by simp [hp2]⟩
  · obtain ⟨bs, hfe, _⟩ := pfx_cons_inv hp
    have hsurv : f ∈
        (if pathExists fs ["app", item] then removeTree fs ["app", item] else fs).files := by
      split
      · exact mem_removeTree hf (by rw [hfe]; exact pfx_dest_head_ne hne bs)
      · exact hf
    have hp2 : pfx [item] (item :: bs) = true := by simp [pfx]
    refine pathExists_of_file_mem (f := (["app", item] ++ bs, f.2)) ?_ (pfx_append _ _)
    show (["app", item] ++ bs, f.2) ∈ List.map _ _
    exact List.mem_map.mpr ⟨f, hsurv, by simp [hfe, hp2]⟩

theorem move_relocates (fs : FS) (item : String) (hne : item ≠ "app")
    (r : FPath) (c : List Char) (hmem : (item :: r, c) ∈ fs.files) :
    (["app", item] ++ r, c) ∈ (fseMove fs [item] ["app", item]).files := by
  unfold fseMove
  have hsurv : (item :: r, c) ∈
      (if pathExists fs ["app", item] then removeTree fs ["app", item] else fs).files := by
    split
    · exact mem_removeTree hmem (pfx_dest_head_ne hne r)
    · exact hmem
  simp only [renameTree]
  refine List.mem_map.mpr ⟨(item :: r, c), hsurv, ?_⟩
  have hp1 : pfx [item] (item :: r) = true := by simp [pfx]
  simp [hp1]

/-- C3 (amended): for every plan entry the destination directory exists
afterwards; when the source is absent the entry changes no file (a no-op
success); when the source exists its files are relocated below the
destination — but the destination directory is replaced wholesale by the
move, so files already inside it are removed rather than preserved (see
the counterexample). -/
theorem c3_migration_entry (fs : FS) (item : String) (hmem : item ∈ migrateItems) :
    pathExists (migrateEntry fs item) ["app", item] = true ∧
    (pathExists (ensureDir fs ["app", item]) [item] = false →
      (migrateEntry fs item).files = fs.files) ∧
    (∀ (r : FPath) (c : List Char),
      pathExists (ensureDir fs ["app", item]) [item] = true →
      (item :: r, c) ∈ fs.files →
      (["app", item] ++ r, c) ∈ (migrateEntry fs item).files) := by
  have hne : item ≠ "app" := by
    simp [migrateItems] at hmem
    rcases hmem with rfl | rfl | rfl | rfl | rfl | rfl <;> decide
  refine ⟨?_, ?_, ?_⟩
  · by_cases hsrc : pathExists (ensureDir fs ["app", item]) [item] = true
    · simp only [migrateEntry, hsrc, if_true]
      exact pathExists_move_dest _ item hne hsrc
    · have hsrc' : pathExists (ensureDir fs ["app", item]) [item] = false := by
        cases hh : pathExists (ensureDir fs ["app", item]) [item]
        · rfl
        · exact absurd hh hsrc
      simp only [migrateEntry, hsrc']
      simp only [Bool.false_eq_true, if_false]
      exact pathExists_ensureDir_self fs ["app", item]
  · intro hno
    simp only [migrateEntry, hno, Bool.false_eq_true, if_false]
    exact ensureDir_files fs ["app", item]
  · intro r c hsrc hf
    simp only [migrateEntry, hsrc, if_true]
    have hf1 : (item :: r, c) ∈ (ensureDir fs ["app", item]).files := by
      rw [ensureDir_files]; exact hf
    exact move_relocates _ item hne r c hf1

theorem c3_migration_entry_witness :
    ("components" ∈ migrateItems) ∧
    pathExists (migrateEntry fsMoveDemo "components") ["app", "components"] = true ∧
    (["app", "components"] ++ ["new.vue"], ([] : List Char))
      ∈ (migrateEntry fsMoveDemo "components").files :=
  ⟨by decide,
   (c3_migration_entry fsMoveDemo "components" (by decide)).1,
   (c3_migration_entry fsMoveDemo "components" (by decide)).2.2 ["new.vue"] [] (by decide)
     (by decide)⟩

/-- C3 counterexample: a file already inside the destination directory
and colliding with nothing in the source is destroyed by the move, because
fs-extra move with overwrite replaces the destination instead of merging
into it. -/
theorem c3_counterexample :
    fileExists fsMoveDemo ["app", "components", "keep.vue"] = true ∧
    fileExists fsMoveDemo ["components", "keep.vue"] = false ∧
    fileExists (migrateEntry fsMoveDemo "components") ["app", "components", "new.vue"] = true ∧
    fileExists (migrateEntry fsMoveDemo "components") ["app", "components", "keep.vue"] = false := by
  decide

/-! ### Pipeline lemmas and claims C6, C8 -/

theorem runSteps_guarded_only (fails : Step → Bool) :
    ∀ l : List Step, (∀ s ∈ l, fails s = true → isGuarded s = true) →
      runSteps fails l = (l, l.filter (fun s => fails s), false) := by
  intro l
  induction l with
  | nil => intro _; rfl
  | cons s rest ih =>
    intro h
    have hrest := ih (fun x hx hfx => h x (List.mem_cons_of_mem s hx) hfx)
    cases hf : fails s with
    | true =>
      have hg := h s (List.mem_cons_self s rest) hf
      simp [runSteps, hf, hg, hrest, List.filter_cons]
    | false =>
      simp [runSteps, hf, hrest, List.filter_cons]

/-- C8: failures confined to guarded (warn-and-continue) steps leave every
step executing and the run exiting 0 with no error printed; a failing
unguarded (abort) step stops execution right there, prints the error and
exits 1. -/
theorem c8_failure_isolation :
    (∀ fails : Step → Bool, (∀ s ∈ pipelineSteps, fails s = true → isGuarded s = true) →
      (runPipeline fails).exitCode = 0 ∧ (runPipeline fails).executed = pipelineSteps ∧
      (runPipeline fails).printedError = false) ∧
    (∀ s : Step, isGuarded s = false →
      (runPipeline (fun x => decide (x = s))).exitCode = 1 ∧
      (runPipeline (fun x => decide (x = s))).printedError = true ∧
      (runPipeline (fun x => decide (x = s))).executed
        = pipelineSteps.takeWhile (fun x => !decide (x = s)) ++ [s]) := by
  constructor
  · intro fails h
    have hr := runSteps_guarded_only fails pipelineSteps h
    simp [runPipeline, hr]
  · intro s hg
    cases s <;> first
      | exact absurd hg (by decide)
      | decide

theorem c8_failure_isolation_witness :
    ((runPipeline (fun x => decide (x = Step.shadcnVueInit))).exitCode = 0 ∧
      (runPipeline (fun x => decide (x = Step.shadcnVueInit))).executed = pipelineSteps ∧
      (runPipeline (fun x => decide (x = Step.shadcnVueInit))).printedError = false) ∧
    ((runPipeline (fun x => decide (x = Step.nuxiInit))).exitCode = 1 ∧
      (runPipeline (fun x => decide (x = Step.nuxiInit))).printedError = true ∧
      (runPipeline (fun x => decide (x = Step.nuxiInit))).executed
        = pipelineSteps.takeWhile (fun x => !decide (x = Step.nuxiInit)) ++ [Step.nuxiInit]) :=
  ⟨c8_failure_isolation.1 _ (by decide), c8_failure_isolation.2 Step.nuxiInit (by decide)⟩

/-- C6 (amended): a failure in any of the unguarded starter-file writes
propagates to the single outer catch: the remaining steps do not run,
nothing is recorded as a warning, and the process exits 1.  Template
writes are not mutually independent and are not warn-and-continue. -/
theorem c6_template_write_failure_aborts :
    ∀ s : Step,
      s ∈ [Step.appVueStep, Step.defaultLayout, Step.indexPageStep, Step.piniaStore] →
      (runPipeline (fun x => decide (x = s))).exitCode = 1 ∧
      (runPipeline (fun x => decide (x = s))).warned = [] ∧
      (runPipeline (fun x => decide (x = s))).executed
        = pipelineSteps.takeWhile (fun x => !decide (x = s)) ++ [s] := by
  intro s hs
  cases s <;> first
    | exact absurd hs (by decide)
    | decide

theorem c6_template_write_failure_aborts_witness :
    (Step.defaultLayout
      ∈ [Step.appVueStep, Step.defaultLayout, Step.indexPageStep, Step.piniaStore]) ∧
    ((runPipeline (fun x => decide (x = Step.defaultLayout))).exitCode = 1 ∧
      (runPipeline (fun x => decide (x = Step.defaultLayout))).warned = [] ∧
      (runPipeline (fun x => decide (x = Step.defaultLayout))).executed
        = pipelineSteps.takeWhile (fun x => !decide (x = Step.defaultLayout))
          ++ [Step.defaultLayout]) :=
  ⟨by decide, c6_template_write_failure_aborts Step.defaultLayout (by decide)⟩

/-- C6 counterexample: when writing the default layout fails, the index
page, store and button steps never execute, nothing is warned about, and
the process exits 1 — the starter-file writes are neither independent nor
warn-and-continue. -/
theorem c6_counterexample :
    (runPipeline (fun x => decide (x = Step.defaultLayout))).exitCode = 1 ∧
    Step.indexPageStep ∉ (runPipeline (fun x => decide (x = Step.defaultLayout))).executed ∧
    Step.piniaStore ∉ (runPipeline (fun x => decide (x = Step.defaultLayout))).executed ∧
    (runPipeline (fun x => decide (x = Step.defaultLayout))).warned = [] := by
  decide

/-! ### Claim C1 machinery: matcher inversion and stability -/

theorem eatLit_self (pat r : List Char) : eatLit pat (pat ++ r) = some r :=
  (eatLit_eq_some pat (pat ++ r) r).mpr rfl

theorem eatLit_none_stable {pat u : List Char} (hlen : pat.length ≤ u.length)
    {v w : List Char} (h : eatLit pat (u ++ v) = none) :
    eatLit pat (u ++ w) = none := by
  cases he : eatLit pat (u ++ w) with
  | none => rfl
  | some r =>
    exfalso
    have hw := (eatLit_eq_some pat (u ++ w) r).mp he
    have hpu : ∃ u2, u = pat ++ u2 := by
      rcases List.append_eq_append_iff.mp hw with ⟨a, ha1, _⟩ | ⟨c, hc1, _⟩
      · have hlen2 : a.length = 0 := by
          have hL := congrArg List.length ha1
          simp only [List.length_append] at hL
          omega
        exact ⟨[], by rw [ha1, List.eq_nil_of_length_eq_zero hlen2]; simp⟩
      · exact ⟨c, hc1⟩
    obtain ⟨u2, hu⟩ := hpu
    rw [hu, List.append_assoc, eatLit_self] at h
    cases h

theorem dropWhile_append_all {p : Char → Bool} :
    ∀ {w : List Char} (t : List Char), (∀ c ∈ w, p c = true) →
      (w ++ t).dropWhile p = t.dropWhile p := by
  intro w
  induction w with
  | nil => intro t _; rfl
  | cons a as ih =>
    intro t h
    have ha := h a (List.mem_cons_self a as)
    simp only [List.cons_append, List.dropWhile_cons, ha, if_true]
    exact ih t (fun c hc => h c (List.mem_cons_of_mem a hc))

theorem takeWhile_append_all {p : Char → Bool} :
    ∀ {w : List Char} (t : List Char), (∀ c ∈ w, p c = true) →
      (w ++ t).takeWhile p = w ++ t.takeWhile p := by
  intro w
  induction w with
  | nil => intro t _; rfl
  | cons a as ih =>
    intro t h
    have ha := h a (List.mem_cons_self a as)
    simp only [List.cons_append, List.takeWhile_cons, ha, if_true]
    rw [ih t (fun c hc => h c (List.mem_cons_of_mem a hc))]

theorem dropWhile_append_stop {p : Char → Bool} :
    ∀ {u : List Char} {d : Char} {u' : List Char} (t : List Char),
      u.dropWhile p = d :: u' → (u ++ t).dropWhile p = d :: (u' ++ t) := by
  intro u
  induction u with
  | nil => intro d u' t h; simp at h
  | cons a as ih =>
    intro d u' t h
    by_cases hp : p a = true
    · rw [List.dropWhile_cons, if_pos hp] at h
      rw [List.cons_append, List.dropWhile_cons, if_pos hp]
      exact ih t h
    · rw [List.dropWhile_cons, if_neg hp] at h
      injection h with h1 h2
      subst h1; subst h2
      rw [List.cons_append, List.dropWhile_cons, if_neg hp]

theorem takeWhile_append_stop {p : Char → Bool} :
    ∀ {u : List Char} {d : Char} {u' : List Char} (t : List Char),
      u.dropWhile p = d :: u' → (u ++ t).takeWhile p = u.takeWhile p := by
  intro u
  induction u with
  | nil => intro d u' t h; simp at h
  | cons a as ih =>
    intro d u' t h
    by_cases hp : p a = true
    · rw [List.dropWhile_cons, if_pos hp] at h
      rw [List.cons_append, List.takeWhile_cons, if_pos hp,
        List.takeWhile_cons, if_pos hp, ih t h]
    · rw [List.cons_append, List.takeWhile_cons, if_neg hp,
        List.takeWhile_cons, if_neg hp]

theorem takeTill_append (a b : List Char) (ha : ']' ∉ a) :
    takeTill (a ++ ']' :: b) = some (a, b) := by
  induction a with
  | nil => simp [takeTill]
  | cons c cs ih =>
    rw [List.mem_cons] at ha
    push_neg at ha
    obtain ⟨ha1, ha2⟩ := ha
    have hc : c ≠ ']' := Ne.symm ha1
    simp [takeTill, hc, ih ha2]

theorem takeTill_inv : ∀ {s : List Char} {i r : List Char}, takeTill s = some (i, r) →
    s = i ++ ']' :: r ∧ ']' ∉ i := by
  intro s
  induction s with
  | nil => intro i r h; cases h
  | cons c cs ih =>
    intro i r h
    by_cases hc : c = ']'
    · subst hc
      simp only [takeTill, if_pos rfl] at h
      injection h with h3
      injection h3 with h1 h2
      subst h1; subst h2
      exact ⟨rfl, List.not_mem_nil _⟩
    · simp only [takeTill, if_neg hc] at h
      cases ht : takeTill cs with
      | none => rw [ht] at h; cases h
      | some pr =>
        obtain ⟨i0, r0⟩ := pr
        rw [ht] at h
        injection h with h3
        injection h3 with h1 h2
        subst h1; subst h2
        obtain ⟨he, hm⟩ := ih ht
        refine ⟨by rw [List.cons_append, ← he], ?_⟩
        simp only [List.mem_cons]
        push_neg
        exact ⟨Ne.symm hc, hm⟩

theorem takeTill_mem_isSome : ∀ {s : List Char}, ']' ∈ s →
    ∃ i r, takeTill s = some (i, r) := by
  intro s
  induction s with
  | nil => intro h; cases h
  | cons c cs ih =>
    intro h
    by_cases hc : c = ']'
    · subst hc
      exact ⟨[], cs, by simp [takeTill]⟩
    · have hcs : ']' ∈ cs := by
        rcases List.mem_cons.mp h with h1 | h1
        · exact absurd h1.symm hc
        · exact h1
      obtain ⟨i, r, ht⟩ := ih hcs
      exact ⟨c :: i, r, by simp [takeTill, hc, ht]⟩

theorem matchAt_none_eat {s : List Char} (h : eatLit modulesLit s = none) :
    matchAt s = none := by
  unfold matchAt; rw [h]

theorem matchAt_some_eat {s s1 : List Char} (h : eatLit modulesLit s = some s1) :
    matchAt s = matchAfterMods s1 := by
  unfold matchAt; rw [h]

theorem matchAfterMods_nil {s1 : List Char} (h : s1.dropWhile isWs = []) :
    matchAfterMods s1 = none := by
  unfold matchAfterMods; rw [h]

theorem matchAfterMods_cons {s1 : List Char} {c : Char} {s3 : List Char}
    (h : s1.dropWhile isWs = c :: s3) :
    matchAfterMods s1
      = if c = ':' then matchAfterColon (s1.takeWhile isWs) s3 else none := by
  unfold matchAfterMods; rw [h]

theorem matchAfterColon_nil (w1 : List Char) {s3 : List Char}
    (h : s3.dropWhile isWs = []) : matchAfterColon w1 s3 = none := by
  unfold matchAfterColon; rw [h]

theorem matchAfterColon_cons (w1 : List Char) {s3 : List Char} {c : Char}
    {s5 : List Char} (h : s3.dropWhile isWs = c :: s5) :
    matchAfterColon w1 s3
      = if c = '[' then
          match takeTill s5 with
          | some (inner, rest) => some ⟨w1, s3.takeWhile isWs, inner, rest⟩
          | none => none
        else none := by
  unfold matchAfterColon; rw [h]

theorem isWs_colon : isWs ':' = false := by decide

theorem isWs_bracket : isWs '[' = false := by decide

theorem matchAfterMods_build (w1 w2 inner rest : List Char)
    (h1 : ∀ c ∈ w1, isWs c = true) (h2 : ∀ c ∈ w2, isWs c = true)
    (hi : ']' ∉ inner) :
    matchAfterMods (w1 ++ ':' :: (w2 ++ '[' :: (inner ++ ']' :: rest)))
      = some ⟨w1, w2, inner, rest⟩ := by
  have hd1 : (w1 ++ ':' :: (w2 ++ '[' :: (inner ++ ']' :: rest))).dropWhile isWs
      = ':' :: (w2 ++ '[' :: (inner ++ ']' :: rest)) := by
    rw [dropWhile_append_all _ h1]
    simp [List.dropWhile_cons, isWs_colon]
  have ht1 : (w1 ++ ':' :: (w2 ++ '[' :: (inner ++ ']' :: rest))).takeWhile isWs = w1 := by
    rw [takeWhile_append_all _ h1]
    simp [List.takeWhile_cons, isWs_colon]
  have hd2 : (w2 ++ '[' :: (inner ++ ']' :: rest)).dropWhile isWs
      = '[' :: (inner ++ ']' :: rest) := by
    rw [dropWhile_append_all _ h2]
    simp [List.dropWhile_cons, isWs_bracket]
  have ht2 : (w2 ++ '[' :: (inner ++ ']' :: rest)).takeWhile isWs = w2 := by
    rw [takeWhile_append_all _ h2]
    simp [List.takeWhile_cons, isWs_bracket]
  rw [matchAfterMods_cons hd1, if_pos rfl, ht1, matchAfterColon_cons w1 hd2,
    if_pos rfl, ht2, takeTill_append _ _ hi]

theorem matchAt_build (w1 w2 inner rest : List Char)
    (h1 : ∀ c ∈ w1, isWs c = true) (h2 : ∀ c ∈ w2, isWs c = true)
    (hi : ']' ∉ inner) :
    matchAt (modulesLit ++ (w1 ++ ':' :: (w2 ++ '[' :: (inner ++ ']' :: rest))))
      = some ⟨w1, w2, inner, rest⟩ := by
  rw [matchAt_some_eat (eatLit_self _ _)]
  exact matchAfterMods_build w1 w2 inner rest h1 h2 hi

theorem matchAt_inv {s : List Char} {m : MatchParts} (h : matchAt s = some m) :
    s = modulesLit ++ (m.ws1 ++ ':' :: (m.ws2 ++ '[' :: (m.inner ++ ']' :: m.rest))) ∧
    (∀ c ∈ m.ws1, isWs c = true) ∧ (∀ c ∈ m.ws2, isWs c = true) ∧ ']' ∉ m.inner := by
  cases he : eatLit modulesLit s with
  | none => rw [matchAt_none_eat he] at h; cases h
  | some s1 =>
    rw [matchAt_some_eat he] at h
    have hs : s = modulesLit ++ s1 := (eatLit_eq_some _ _ _).mp he
    cases hd1 : s1.dropWhile isWs with
    | nil => rw [matchAfterMods_nil hd1] at h; cases h
    | cons c s3 =>
      rw [matchAfterMods_cons hd1] at h
      by_cases hc : c = ':'
      case neg => rw [if_neg hc] at h; cases h
      subst hc
      rw [if_pos rfl] at h
      cases hd2 : s3.dropWhile isWs with
      | nil => rw [matchAfterColon_nil _ hd2] at h; cases h
      | cons d s5 =>
        rw [matchAfterColon_cons _ hd2] at h
        by_cases hdb : d = '['
        case neg => rw [if_neg hdb] at h; cases h
        subst hdb
        rw [if_pos rfl] at h
        cases ht : takeTill s5 with
        | none => rw [ht] at h; cases h
        | some pr =>
          obtain ⟨inner, rest⟩ := pr
          rw [ht] at h
          injection h with h3
          subst h3
          obtain ⟨hti, htm⟩ := takeTill_inv ht
          have e1 : s1 = s1.takeWhile isWs ++ (':' :: s3) := by
            have e := (List.takeWhile_append_dropWhile isWs s1).symm
            rw [hd1] at e
            exact e
          have e2 : s3 = s3.takeWhile isWs ++ ('[' :: s5) := by
            have e := (List.takeWhile_append_dropWhile isWs s3).symm
            rw [hd2] at e
            exact e
          refine ⟨?_, ?_, ?_, htm⟩
          · rw [hs]
            simp only []
            conv_lhs => rw [e1, e2, hti]
          · intro x hx
            exact List.mem_takeWhile_imp hx
          · intro x hx
            exact List.mem_takeWhile_imp hx

theorem matchAfterColon_none_arg {w w' s3 : List Char}
    (h : matchAfterColon w s3 = none) : matchAfterColon w' s3 = none := by
  cases hd : s3.dropWhile isWs with
  | nil => exact matchAfterColon_nil w' hd
  | cons c s5 =>
    rw [matchAfterColon_cons w hd] at h
    rw [matchAfterColon_cons w' hd]
    by_cases hc : c = '['
    · rw [if_pos hc] at h
      rw [if_pos hc]
      cases ht : takeTill s5 with
      | none => rfl
      | some pr =>
        obtain ⟨i, r⟩ := pr
        rw [ht] at h
        simp at h
    · rw [if_neg hc]

/-- Transfer of matcher failure: a position strictly before the first
modules-array match fails to match in the original document, and the same
position still fails after the matched segment has been replaced by the
re-serialized array.  The two contradiction branches correspond to
positions that would in fact have matched in the original document. -/
theorem matchAt_none_transfer (p w1 w2 inner rest newInner : List Char)
    (hp : p ≠ []) (h1 : ∀ c ∈ w1, isWs c = true) (h2 : ∀ c ∈ w2, isWs c = true)
    (hi : ']' ∉ inner)
    (hold : matchAt (p ++ (modulesLit ++ (w1 ++ ':' :: (w2 ++ '[' :: (inner ++ ']' :: rest)))))
      = none) :
    matchAt (p ++ (modulesLit ++ (':' :: ' ' :: '[' :: (newInner ++ ']' :: rest)))) = none := by
  have hassoc_old : p ++ (modulesLit ++ (w1 ++ ':' :: (w2 ++ '[' :: (inner ++ ']' :: rest))))
      = (p ++ modulesLit) ++ (w1 ++ ':' :: (w2 ++ '[' :: (inner ++ ']' :: rest))) := by
    rw [List.append_assoc]
  have hassoc_new : p ++ (modulesLit ++ (':' :: ' ' :: '[' :: (newInner ++ ']' :: rest)))
      = (p ++ modulesLit) ++ (':' :: ' ' :: '[' :: (newInner ++ ']' :: rest)) := by
    rw [List.append_assoc]
  rw [hassoc_old] at hold
  rw [hassoc_new]
  cases he : eatLit modulesLit
      ((p ++ modulesLit) ++ (':' :: ' ' :: '[' :: (newInner ++ ']' :: rest))) with
  | none => exact matchAt_none_eat he
  | some rNew =>
    -- split off the shared remainder u of p ++ modulesLit after the literal
    have hlen : modulesLit.length ≤ (p ++ modulesLit).length := by
      simp [List.length_append]
    have hwNew := (eatLit_eq_some _ _ _).mp he
    have hu : ∃ u, p ++ modulesLit = modulesLit ++ u ∧ u ≠ [] := by
      rcases List.append_eq_append_iff.mp hwNew with ⟨a, ha1, _⟩ | ⟨c, hc1, _⟩
      · exfalso
        have hL := congrArg List.length ha1
        simp only [List.length_append] at hL
        have hp0 : p.length = 0 := by omega
        exact hp (List.eq_nil_of_length_eq_zero hp0)
      · refine ⟨c, hc1, ?_⟩
        intro hc0
        have hL := congrArg List.length hc1
        simp only [List.length_append] at hL
        have hc0L : c.length = 0 := by rw [hc0]; rfl
        have hp0 : p.length = 0 := by omega
        exact hp (List.eq_nil_of_length_eq_zero hp0)
    obtain ⟨u, hu1, hu2⟩ := hu
    have heOld : eatLit modulesLit
        ((p ++ modulesLit) ++ (w1 ++ ':' :: (w2 ++ '[' :: (inner ++ ']' :: rest))))
        = some (u ++ (w1 ++ ':' :: (w2 ++ '[' :: (inner ++ ']' :: rest)))) := by
      rw [hu1, List.append_assoc]
      exact eatLit_self _ _
    have heNew : eatLit modulesLit
        ((p ++ modulesLit) ++ (':' :: ' ' :: '[' :: (newInner ++ ']' :: rest)))
        = some (u ++ (':' :: ' ' :: '[' :: (newInner ++ ']' :: rest))) := by
      rw [hu1, List.append_assoc]
      exact eatLit_self _ _
    rw [matchAt_some_eat heOld] at hold
    rw [matchAt_some_eat heNew]
    -- now both sides are matchAfterMods on u ++ tail
    cases hdu : u.dropWhile isWs with
    | nil =>
      -- u is all whitespace: the original position would have matched
      exfalso
      have hall : ∀ c ∈ u, isWs c = true := List.dropWhile_eq_nil_iff.mp hdu
      have hrw : u ++ (w1 ++ ':' :: (w2 ++ '[' :: (inner ++ ']' :: rest)))
          = (u ++ w1) ++ ':' :: (w2 ++ '[' :: (inner ++ ']' :: rest)) := by
        rw [List.append_assoc]
      rw [hrw, matchAfterMods_build (u ++ w1) w2 inner rest
        (fun c hc => by
          rcases List.mem_append.mp hc with hcu | hcw
          · exact hall c hcu
          · exact h1 c hcw) h2 hi] at hold
      cases hold
    | cons d u' =>
      have hdo := dropWhile_append_stop
        (p := isWs) (w1 ++ ':' :: (w2 ++ '[' :: (inner ++ ']' :: rest))) hdu
      have hdn := dropWhile_append_stop
        (p := isWs) (':' :: ' ' :: '[' :: (newInner ++ ']' :: rest)) hdu
      rw [matchAfterMods_cons hdo] at hold
      rw [matchAfterMods_cons hdn]
      by_cases hd : d = ':'
      · rw [if_pos hd] at hold
        rw [if_pos hd]
        refine matchAfterColon_none_arg (w := (u ++ (w1 ++ ':' :: (w2 ++ '[' ::
          (inner ++ ']' :: rest)))).takeWhile isWs) ?_
        -- noneness of matchAfterColon on u' ++ old tail transfers to u' ++ new tail
        cases hdu' : u'.dropWhile isWs with
        | nil =>
          have hall' : ∀ c ∈ u', isWs c = true := List.dropWhile_eq_nil_iff.mp hdu'
          have hdn2 : (u' ++ (':' :: ' ' :: '[' :: (newInner ++ ']' :: rest))).dropWhile isWs
              = ':' :: (' ' :: '[' :: (newInner ++ ']' :: rest)) := by
            rw [dropWhile_append_all _ hall']
            simp [List.dropWhile_cons, isWs_colon]
          rw [matchAfterColon_cons _ hdn2]
          rw [if_neg (by decide : ¬(':' = '['))]
        | cons e u'' =>
          have hdo2 := dropWhile_append_stop
            (p := isWs) (w1 ++ ':' :: (w2 ++ '[' :: (inner ++ ']' :: rest))) hdu'
          have hdn2 := dropWhile_append_stop
            (p := isWs) (':' :: ' ' :: '[' :: (newInner ++ ']' :: rest)) hdu'
          rw [matchAfterColon_cons _ hdo2] at hold
          rw [matchAfterColon_cons _ hdn2]
          by_cases he2 : e = '['
          · rw [if_pos he2] at hold
            exfalso
            have hmem : ']' ∈ u'' ++ (w1 ++ ':' :: (w2 ++ '[' :: (inner ++ ']' :: rest))) := by
              refine List.mem_append.mpr (Or.inr ?_)
              refine List.mem_append.mpr (Or.inr ?_)
              refine List.mem_cons_of_mem _ ?_
              refine List.mem_append.mpr (Or.inr ?_)
              refine List.mem_cons_of_mem _ ?_
              refine List.mem_append.mpr (Or.inr ?_)
              exact List.mem_cons_self _ _
            obtain ⟨i, r, hti⟩ := takeTill_mem_isSome hmem
            rw [hti] at hold
            cases hold
          · rw [if_neg he2]
      · rw [if_neg hd]

theorem matchText_append_rest (m : MatchParts) :
    matchText m ++ m.rest
      = modulesLit ++ (m.ws1 ++ ':' :: (m.ws2 ++ '[' :: (m.inner ++ ']' :: m.rest))) := by
  simp [matchText, List.append_assoc]

theorem findFirst_cons_some {c : Char} {cs : List Char} {m : MatchParts}
    (h : matchAt (c :: cs) = some m) : findFirst (c :: cs) = some ([], m) := by
  have he : findFirst (c :: cs)
      = match matchAt (c :: cs) with
        | some m => some ([], m)
        | none =>
          match findFirst cs with
          | some (p, m) => some (c :: p, m)
          | none => none := rfl
  rw [he, h]

theorem findFirst_cons_none {c : Char} {cs : List Char}
    (h : matchAt (c :: cs) = none) :
    findFirst (c :: cs)
      = match findFirst cs with
        | some (p, m) => some (c :: p, m)
        | none => none := by
  have he : findFirst (c :: cs)
      = match matchAt (c :: cs) with
        | some m => some ([], m)
        | none =>
          match findFirst cs with
          | some (p, m) => some (c :: p, m)
          | none => none := rfl
  rw [he, h]

theorem findFirst_inv :
    ∀ {doc pre : List Char} {m : MatchParts}, findFirst doc = some (pre, m) →
      doc = pre ++ (matchText m ++ m.rest) ∧
      matchAt (matchText m ++ m.rest) = some m ∧
      (∀ p1 p2, pre = p1 ++ p2 → p2 ≠ [] →
        matchAt (p2 ++ (matchText m ++ m.rest)) = none) := by
  intro doc
  induction doc with
  | nil => intro pre m h; cases h
  | cons c cs ih =>
    intro pre m h
    cases hm : matchAt (c :: cs) with
    | some m0 =>
      rw [findFirst_cons_some hm] at h
      injection h with h3
      injection h3 with h1 h2
      subst h1; subst h2
      have hinv := matchAt_inv hm
      have hdec : c :: cs = matchText m0 ++ m0.rest := by
        rw [matchText_append_rest]
        exact hinv.1
      refine ⟨by simpa using hdec, by rw [← hdec]; exact hm, ?_⟩
      intro p1 p2 hsplit hne
      exact absurd ((List.append_eq_nil.mp hsplit.symm).2) hne
    | none =>
      rw [findFirst_cons_none hm] at h
      cases hf : findFirst cs with
      | none => rw [hf] at h; cases h
      | some pm =>
        obtain ⟨p, m1⟩ := pm
        rw [hf] at h
        injection h with h3
        injection h3 with h1 h2
        subst h1; subst h2
        obtain ⟨hdec, hmt, hnone⟩ := ih hf
        refine ⟨by rw [List.cons_append, ← hdec], hmt, ?_⟩
        intro p1 p2 hsplit hne
        cases p1 with
        | nil =>
          simp only [List.nil_append] at hsplit
          rw [← hsplit]
          rw [List.cons_append]
          rw [← hdec]
          exact hm
        | cons c1 p1' =>
          rw [List.cons_append] at hsplit
          injection hsplit with h4 h5
          exact hnone p1' p2 h5 hne

theorem findFirst_build :
    ∀ (pre : List Char) {t : List Char} {m : MatchParts}, matchAt t = some m →
      (∀ p1 p2, pre = p1 ++ p2 → p2 ≠ [] → matchAt (p2 ++ t) = none) →
      findFirst (pre ++ t) = some (pre, m) := by
  intro pre
  induction pre with
  | nil =>
    intro t m hm _
    cases t with
    | nil =>
      have hnil : matchAt ([] : List Char) = none := by decide
      rw [hnil] at hm
      cases hm
    | cons c cs =>
      simpa using findFirst_cons_some hm
  | cons c pre' ih =>
    intro t m hm hnone
    have hcp : matchAt (c :: (pre' ++ t)) = none := by
      have hx := hnone [] (c :: pre') (by simp) (by simp)
      rw [List.cons_append] at hx
      exact hx
    rw [List.cons_append, findFirst_cons_none hcp,
      ih hm (fun p1 p2 hs hne => hnone (c :: p1) p2 (by rw [hs, List.cons_append]) hne)]

/-! ### Token parsing and serialization lemmas -/

theorem splitComma_cons (c : Char) (cs : List Char) :
    splitComma (c :: cs)
      = match splitComma cs with
        | [] => [[]]
        | t :: ts => if c = ',' then [] :: t :: ts else (c :: t) :: ts := rfl

theorem splitComma_ne_nil : ∀ s : List Char, splitComma s ≠ [] := by
  intro s
  induction s with
  | nil => simp [splitComma]
  | cons c cs ih =>
    cases hs : splitComma cs with
    | nil => exact absurd hs ih
    | cons t ts =>
      rw [splitComma_cons, hs]
      show (if c = ',' then [] :: t :: ts else (c :: t) :: ts) ≠ []
      by_cases hc : c = ','
      · rw [if_pos hc]; simp
      · rw [if_neg hc]; simp

theorem splitComma_pieces_no_comma :
    ∀ (s t : List Char), t ∈ splitComma s → ',' ∉ t := by
  intro s
  induction s with
  | nil =>
    intro t ht
    simp [splitComma] at ht
    subst ht
    simp
  | cons c cs ih =>
    intro t ht
    rw [splitComma_cons] at ht
    cases hs : splitComma cs with
    | nil => exact absurd hs (splitComma_ne_nil cs)
    | cons t0 ts =>
      rw [hs] at ht
      have ht' : t ∈ (if c = ',' then [] :: t0 :: ts else (c :: t0) :: ts) := ht
      by_cases hc : c = ','
      · rw [if_pos hc] at ht'
        rcases List.mem_cons.mp ht' with h1 | h1
        · subst h1; simp
        · exact ih t (by rw [hs]; exact h1)
      · rw [if_neg hc] at ht'
        rcases List.mem_cons.mp ht' with h1 | h1
        · subst h1
          intro hmem
          rcases List.mem_cons.mp hmem with h2 | h2
          · exact hc h2.symm
          · exact ih t0 (by rw [hs]; exact List.mem_cons_self t0 ts) h2
        · exact ih t (by rw [hs]; exact List.mem_cons_of_mem t0 h1)

theorem mem_splitComma_sub :
    ∀ (s t : List Char) (x : Char), t ∈ splitComma s → x ∈ t → x ∈ s := by
  intro s
  induction s with
  | nil =>
    intro t x ht hx
    simp [splitComma] at ht
    subst ht
    cases hx
  | cons c cs ih =>
    intro t x ht hx
    rw [splitComma_cons] at ht
    cases hs : splitComma cs with
    | nil => exact absurd hs (splitComma_ne_nil cs)
    | cons t0 ts =>
      rw [hs] at ht
      have ht' : t ∈ (if c = ',' then [] :: t0 :: ts else (c :: t0) :: ts) := ht
      by_cases hc : c = ','
      · rw [if_pos hc] at ht'
        rcases List.mem_cons.mp ht' with h1 | h1
        · subst h1; cases hx
        · exact List.mem_cons_of_mem c (ih t x (by rw [hs]; exact h1) hx)
      · rw [if_neg hc] at ht'
        rcases List.mem_cons.mp ht' with h1 | h1
        · subst h1
          rcases List.mem_cons.mp hx with h2 | h2
          · subst h2; exact List.mem_cons_self x cs
          · exact List.mem_cons_of_mem c
              (ih t0 x (by rw [hs]; exact List.mem_cons_self t0 ts) h2)
        · exact List.mem_cons_of_mem c (ih t x (by rw [hs]; exact List.mem_cons_of_mem t0 h1) hx)

theorem mem_of_mem_dropWhile {p : Char → Bool} {l : List Char} {x : Char}
    (h : x ∈ l.dropWhile p) : x ∈ l := (List.dropWhile_suffix p).subset h

theorem stripEnds_sub {s : List Char} {x : Char} (h : x ∈ stripEnds s) : x ∈ s := by
  unfold stripEnds at h
  rw [List.mem_reverse] at h
  have h2 := mem_of_mem_dropWhile h
  rw [List.mem_reverse] at h2
  exact mem_of_mem_dropWhile h2

theorem dropWhile_head_false {p : Char → Bool} :
    ∀ {l : List Char} {c : Char} {t : List Char}, l.dropWhile p = c :: t → p c = false := by
  intro l
  induction l with
  | nil => intro c t h; simp at h
  | cons a as ih =>
    intro c t h
    by_cases hp : p a = true
    · rw [List.dropWhile_cons, if_pos hp] at h
      exact ih h
    · rw [List.dropWhile_cons, if_neg hp] at h
      injection h with h1 _
      subst h1
      exact Bool.eq_false_iff.mpr hp

theorem dropWhile_idem {p : Char → Bool} (l : List Char) :
    (l.dropWhile p).dropWhile p = l.dropWhile p := by
  cases h : l.dropWhile p with
  | nil => rfl
  | cons c t => simp [List.dropWhile_cons, dropWhile_head_false h]

theorem length_dropWhile_le (p : Char → Bool) (l : List Char) :
    (l.dropWhile p).length ≤ l.length := (List.dropWhile_suffix p).length_le

theorem dropWhile_eq_self_of_length {p : Char → Bool} {l : List Char}
    (h : (l.dropWhile p).length = l.length) : l.dropWhile p = l :=
  (List.dropWhile_suffix p).eq_of_length h

theorem stripEnds_eq_self_parts {s : List Char} (h : stripEnds s = s) :
    s.dropWhile isQW = s ∧ s.reverse.dropWhile isQW = s.reverse := by
  have hl := congrArg List.length h
  unfold stripEnds at hl
  simp only [List.length_reverse] at hl
  have i1 := length_dropWhile_le isQW (s.dropWhile isQW).reverse
  have i2 := length_dropWhile_le isQW s
  rw [List.length_reverse] at i1
  have e2 : (s.dropWhile isQW).length = s.length := by omega
  have hd : s.dropWhile isQW = s := dropWhile_eq_self_of_length e2
  refine ⟨hd, ?_⟩
  have e3 : ((s.dropWhile isQW).reverse.dropWhile isQW).length
      = (s.dropWhile isQW).reverse.length := by
    rw [List.length_reverse, e2]
    exact hl
  have hfix := dropWhile_eq_self_of_length e3
  rw [hd] at hfix
  exact hfix

theorem stripEnds_eq_self_of_parts {s : List Char} (h1 : s.dropWhile isQW = s)
    (h2 : s.reverse.dropWhile isQW = s.reverse) : stripEnds s = s := by
  unfold stripEnds
  rw [h1, h2]
  simp

theorem stripEnds_idem (s : List Char) : stripEnds (stripEnds s) = stripEnds s := by
  apply stripEnds_eq_self_of_parts
  · cases hb : stripEnds s with
    | nil => rfl
    | cons c bs =>
      have hb' : ((s.dropWhile isQW).reverse.dropWhile isQW).reverse = c :: bs := hb
      have hpre : c :: bs <+: s.dropWhile isQW := by
        rw [← hb']
        have hsuf : (s.dropWhile isQW).reverse.dropWhile isQW <:+ (s.dropWhile isQW).reverse :=
          List.dropWhile_suffix _
        have hpr := List.reverse_prefix.mpr hsuf
        rwa [List.reverse_reverse] at hpr
      obtain ⟨rest, hrest⟩ := hpre
      rw [List.cons_append] at hrest
      have hcf : isQW c = false := dropWhile_head_false hrest.symm
      rw [List.dropWhile_cons, if_neg (by simp [hcf])]
  · have hrev : (stripEnds s).reverse = (s.dropWhile isQW).reverse.dropWhile isQW := by
      unfold stripEnds
      rw [List.reverse_reverse]
    rw [hrev]
    exact dropWhile_idem _

theorem stripEnds_cons_qw {c : Char} {s : List Char} (h : isQW c = true) :
    stripEnds (c :: s) = stripEnds s := by
  unfold stripEnds
  rw [List.dropWhile_cons, if_pos h]

theorem stripEnds_quoted {t : List Char} (h : stripEnds t = t) :
    stripEnds ('\x27' :: (t ++ ['\x27'])) = t := by
  obtain ⟨hd, hr⟩ := stripEnds_eq_self_parts h
  have hq : isQW '\x27' = true := by decide
  unfold stripEnds
  rw [List.dropWhile_cons, if_pos hq]
  cases t with
  | nil => decide
  | cons c t' =>
    have hc : isQW c = false := by
      by_cases hcc : isQW c = true
      · rw [List.dropWhile_cons, if_pos hcc] at hd
        have hL := congrArg List.length hd
        have hle := length_dropWhile_le isQW t'
        simp only [List.length_cons] at hL
        omega
      · exact Bool.eq_false_iff.mpr hcc
    rw [List.cons_append, List.dropWhile_cons, if_neg (by simp [hc])]
    have hrev : (c :: (t' ++ ['\x27'])).reverse = '\x27' :: (t'.reverse ++ [c]) := by
      simp
    rw [hrev, List.dropWhile_cons, if_pos hq]
    have hr' : (t'.reverse ++ [c]).dropWhile isQW = t'.reverse ++ [c] := by
      have hcr : (c :: t').reverse = t'.reverse ++ [c] := by simp
      rw [hcr] at hr
      exact hr
    rw [hr']
    simp

theorem not_mem_quoteTok {x : Char} {t : List Char} (hx : x ≠ '\x27') (h : x ∉ t) :
    x ∉ quoteTok t := by
  intro hm
  unfold quoteTok at hm
  rcases List.mem_cons.mp hm with h1 | h1
  · exact hx h1
  · rcases List.mem_append.mp h1 with h2 | h2
    · exact h h2
    · rcases List.mem_cons.mp h2 with h3 | h3
      · exact hx h3
      · cases h3

theorem splitComma_no_comma : ∀ {s : List Char}, ',' ∉ s → splitComma s = [s] := by
  intro s
  induction s with
  | nil => intro _; rfl
  | cons c cs ih =>
    intro h
    rw [List.mem_cons] at h
    push_neg at h
    rw [splitComma_cons, ih h.2]
    show (if c = ',' then [] :: cs :: [] else (c :: cs) :: []) = [c :: cs]
    rw [if_neg (fun hc : c = ',' => h.1 hc.symm)]

theorem splitComma_append_comma :
    ∀ {a : List Char} (b : List Char), ',' ∉ a →
      splitComma (a ++ ',' :: b) = a :: splitComma b := by
  intro a
  induction a with
  | nil =>
    intro b _
    rw [List.nil_append, splitComma_cons]
    cases hs : splitComma b with
    | nil => exact absurd hs (splitComma_ne_nil b)
    | cons t ts =>
      show (if ',' = ',' then [] :: t :: ts else (',' :: t) :: ts) = [] :: t :: ts
      rw [if_pos rfl]
  | cons c a' ih =>
    intro b h
    rw [List.mem_cons] at h
    push_neg at h
    rw [List.cons_append, splitComma_cons, ih b h.2]
    show (if c = ',' then [] :: a' :: splitComma b else (c :: a') :: splitComma b)
      = (c :: a') :: splitComma b
    rw [if_neg (fun hc : c = ',' => h.1 hc.symm)]

theorem renderMods_no_bracket :
    ∀ (L : List (List Char)), (∀ t ∈ L, ']' ∉ t) → ']' ∉ renderMods L := by
  intro L
  induction L with
  | nil => intro _; simp [renderMods]
  | cons t L' ih =>
    intro h
    cases L' with
    | nil =>
      show ']' ∉ quoteTok t
      exact not_mem_quoteTok (by decide) (h t (List.mem_cons_self t []))
    | cons t2 L'' =>
      show ']' ∉ quoteTok t ++ ',' :: ' ' :: renderMods (t2 :: L'')
      intro hm
      rcases List.mem_append.mp hm with h1 | h1
      · exact not_mem_quoteTok (by decide) (h t (List.mem_cons_self _ _)) h1
      · rcases List.mem_cons.mp h1 with h2 | h2
        · cases h2
        · rcases List.mem_cons.mp h2 with h3 | h3
          · cases h3
          · exact ih (fun x hx => h x (List.mem_cons_of_mem t hx)) h3

theorem parseMods_renderMods :
    ∀ (L : List (List Char)), L ≠ [] → (∀ t ∈ L, ',' ∉ t ∧ stripEnds t = t) →
      parseMods (renderMods L) = L := by
  intro L
  induction L with
  | nil => intro h _; exact absurd rfl h
  | cons t L' ih =>
    intro _ hcond
    obtain ⟨hct, hst⟩ := hcond t (List.mem_cons_self _ _)
    cases L' with
    | nil =>
      show parseMods (quoteTok t) = [t]
      unfold parseMods
      rw [splitComma_no_comma (not_mem_quoteTok (by decide) hct)]
      show [stripEnds ('\x27' :: (t ++ ['\x27']))] = [t]
      rw [stripEnds_quoted hst]
    | cons t2 L'' =>
      have hrest := ih (by simp) (fun x hx => hcond x (List.mem_cons_of_mem _ hx))
      show parseMods (quoteTok t ++ ',' :: ' ' :: renderMods (t2 :: L'')) = t :: t2 :: L''
      unfold parseMods
      rw [splitComma_append_comma (' ' :: renderMods (t2 :: L''))
        (not_mem_quoteTok (by decide) hct)]
      cases hs : splitComma (renderMods (t2 :: L'')) with
      | nil => exact absurd hs (splitComma_ne_nil _)
      | cons x xs =>
        have hsc : splitComma (' ' :: renderMods (t2 :: L'')) = (' ' :: x) :: xs := by
          rw [splitComma_cons, hs]
          show (if ' ' = ',' then [] :: x :: xs else (' ' :: x) :: xs) = (' ' :: x) :: xs
          rw [if_neg (by decide : ¬(' ' = ','))]
        rw [hsc]
        simp only [List.map_cons]
        have hqt : stripEnds (quoteTok t) = t := stripEnds_quoted hst
        rw [show stripEnds (quoteTok t) = t from hqt,
          stripEnds_cons_qw (by decide : isQW ' ' = true)]
        unfold parseMods at hrest
        rw [hs] at hrest
        simp only [List.map_cons] at hrest
        rw [hrest]

theorem parseMods_token_cond {inner : List Char} (hbr : ']' ∉ inner) :
    ∀ t ∈ parseMods inner, (',' ∉ t ∧ stripEnds t = t) ∧ ']' ∉ t := by
  intro t ht
  unfold parseMods at ht
  obtain ⟨piece, hpmem, hpe⟩ := List.mem_map.mp ht
  subst hpe
  refine ⟨⟨?_, stripEnds_idem piece⟩, ?_⟩
  · intro hm
    exact splitComma_pieces_no_comma _ piece hpmem (stripEnds_sub hm)
  · intro hm
    exact hbr (mem_splitComma_sub _ piece ']' hpmem (stripEnds_sub hm))

theorem parseMods_ne_nil (inner : List Char) : parseMods inner ≠ [] := by
  unfold parseMods
  intro h
  exact splitComma_ne_nil inner (List.map_eq_nil_iff.mp h)

theorem mem_mergeList (l : List (List Char)) (name : List Char) :
    name ∈ mergeList l name := by
  unfold mergeList
  split
  · assumption
  · simp

theorem mergeList_eq_of_mem {l : List (List Char)} {name : List Char}
    (h : name ∈ l) : mergeList l name = l := by
  unfold mergeList
  rw [if_pos h]

theorem mergeList_tokens {l : List (List Char)} {name : List Char}
    (P : List Char → Prop) (hl : ∀ t ∈ l, P t) (hn : P name) :
    ∀ t ∈ mergeList l name, P t := by
  unfold mergeList
  split
  · exact hl
  · intro t ht
    rcases List.mem_append.mp ht with h1 | h1
    · exact hl t h1
    · rcases List.mem_cons.mp h1 with h2 | h2
      · rw [h2]; exact hn
      · cases h2

theorem mergeList_ne_nil {l : List (List Char)} {name : List Char}
    (h : l ≠ []) : mergeList l name ≠ [] := by
  unfold mergeList
  split
  · exact h
  · simp

/-! ### Idempotence of the modules merge -/

theorem modulesOpen_eq : modulesOpen = modulesLit ++ (':' :: ' ' :: ['[']) := by decide

theorem isWs_space : isWs ' ' = true := by decide

theorem mergeIntoModuleList_idem (doc name : List Char) (hn : tokenOk name = true) :
    mergeIntoModuleList (mergeIntoModuleList doc name) name
      = mergeIntoModuleList doc name := by
  rw [tokenOk, Bool.and_eq_true, Bool.and_eq_true] at hn
  obtain ⟨⟨hn1, hn2⟩, hn3⟩ := hn
  rw [decide_eq_true_eq] at hn1 hn2 hn3
  cases hf : findFirst doc with
  | none => simp [mergeIntoModuleList, hf]
  | some pm =>
    obtain ⟨pre, m⟩ := pm
    obtain ⟨hdoc, hmt, hnone⟩ := findFirst_inv hf
    obtain ⟨hdec, hw1, hw2, hbr⟩ := matchAt_inv hmt
    have htok : ∀ t ∈ mergeList (parseMods m.inner) name,
        (',' ∉ t ∧ stripEnds t = t) ∧ ']' ∉ t :=
      mergeList_tokens _ (parseMods_token_cond hbr) ⟨⟨hn1, hn3⟩, hn2⟩
    have hRbr : ']' ∉ renderMods (mergeList (parseMods m.inner) name) :=
      renderMods_no_bracket _ (fun t ht => (htok t ht).2)
    have hL1ne : mergeList (parseMods m.inner) name ≠ [] :=
      mergeList_ne_nil (parseMods_ne_nil m.inner)
    have hround : parseMods (renderMods (mergeList (parseMods m.inner) name))
        = mergeList (parseMods m.inner) name :=
      parseMods_renderMods _ hL1ne (fun t ht => (htok t ht).1)
    have hmerge2 :
        mergeList (parseMods (renderMods (mergeList (parseMods m.inner) name))) name
          = mergeList (parseMods m.inner) name := by
      rw [hround]
      exact mergeList_eq_of_mem (mem_mergeList _ _)
    set R := renderMods (mergeList (parseMods m.inner) name) with hR
    have hfdoc : mergeIntoModuleList doc name
        = pre ++ (modulesOpen ++ (R ++ ']' :: m.rest)) := by
      simp only [mergeIntoModuleList, hf]
      rw [← hR]
      simp [List.append_assoc]
    have hmatch2 : matchAt (modulesOpen ++ (R ++ ']' :: m.rest))
        = some ⟨[], [' '], R, m.rest⟩ := by
      have hb := matchAt_build [] [' '] R m.rest (by simp)
        (by intro c hc; simp at hc; rw [hc]; exact isWs_space) hRbr
      simpa [modulesOpen_eq, List.append_assoc] using hb
    have hnone2 : ∀ p1 p2, pre = p1 ++ p2 → p2 ≠ [] →
        matchAt (p2 ++ (modulesOpen ++ (R ++ ']' :: m.rest))) = none := by
      intro p1 p2 hs hne
      have hold := hnone p1 p2 hs hne
      rw [matchText_append_rest] at hold
      have htr := matchAt_none_transfer p2 m.ws1 m.ws2 m.inner m.rest R hne hw1 hw2 hbr hold
      simpa [modulesOpen_eq, List.append_assoc] using htr
    have hff2 : findFirst (pre ++ (modulesOpen ++ (R ++ ']' :: m.rest)))
        = some (pre, ⟨[], [' '], R, m.rest⟩) :=
      findFirst_build pre hmatch2 hnone2
    rw [hfdoc]
    simp only [mergeIntoModuleList, hff2]
    rw [hmerge2, ← hR]
    simp [List.append_assoc]

/-! ### Claim C1: idempotence of the patch operations -/

/-- C1: for every document, applying ensureImport, mergeIntoModuleList or
insertKeyBlockIfAbsent twice with the same argument yields a document
textually identical to applying it once (the key text occurs in its own
block, and a merged module name is a well-formed token, as is the case for
every argument the scaffolder passes). -/
theorem c1_patch_idempotence (doc imp key block name : List Char)
    (hkb : containsSub key block = true) (hn : tokenOk name = true) :
    ensureImport (ensureImport doc imp) imp = ensureImport doc imp ∧
    mergeIntoModuleList (mergeIntoModuleList doc name) name = mergeIntoModuleList doc name ∧
    insertKeyBlockIfAbsent (insertKeyBlockIfAbsent doc key block) key block
      = insertKeyBlockIfAbsent doc key block :=
  ⟨ensureImport_idem doc imp, mergeIntoModuleList_idem doc name hn,
   insertKeyBlockIfAbsent_idem doc key block hkb⟩

set_option maxRecDepth 40000 in
theorem c1_patch_idempotence_witness :
    (containsSub shadcnKey shadcnBlock = true ∧ tokenOk shadcnName = true) ∧
    (ensureImport (ensureImport sampleDoc tailwindImportLine) tailwindImportLine
        = ensureImport sampleDoc tailwindImportLine ∧
      mergeIntoModuleList (mergeIntoModuleList sampleDoc shadcnName) shadcnName
        = mergeIntoModuleList sampleDoc shadcnName ∧
      insertKeyBlockIfAbsent (insertKeyBlockIfAbsent sampleDoc shadcnKey shadcnBlock)
          shadcnKey shadcnBlock
        = insertKeyBlockIfAbsent sampleDoc shadcnKey shadcnBlock) :=
  ⟨⟨by decide, by decide⟩,
   c1_patch_idempotence sampleDoc tailwindImportLine shadcnKey shadcnBlock shadcnName
     (by decide) (by decide)⟩

/-! ### Claim C7: merge scenarios -/

/-- The module list after a merge, for any document with a modules-array
match: the merge appends the name exactly when it is absent, whatever the
quoting, spacing or surrounding text of the document. -/
theorem modListOf_merge (doc name : List Char) (hn : tokenOk name = true)
    {pre : List Char} {m : MatchParts} (hf : findFirst doc = some (pre, m)) :
    modListOf (mergeIntoModuleList doc name) = mergeList (parseMods m.inner) name := by
  rw [tokenOk, Bool.and_eq_true, Bool.and_eq_true] at hn
  obtain ⟨⟨hn1, hn2⟩, hn3⟩ := hn
  rw [decide_eq_true_eq] at hn1 hn2 hn3
  obtain ⟨hdoc, hmt, hnone⟩ := findFirst_inv hf
  obtain ⟨hdec, hw1, hw2, hbr⟩ := matchAt_inv hmt
  have htok : ∀ t ∈ mergeList (parseMods m.inner) name,
      (',' ∉ t ∧ stripEnds t = t) ∧ ']' ∉ t :=
    mergeList_tokens _ (parseMods_token_cond hbr) ⟨⟨hn1, hn3⟩, hn2⟩
  have hRbr : ']' ∉ renderMods (mergeList (parseMods m.inner) name) :=
    renderMods_no_bracket _ (fun t ht => (htok t ht).2)
  have hL1ne : mergeList (parseMods m.inner) name ≠ [] :=
    mergeList_ne_nil (parseMods_ne_nil m.inner)
  have hround : parseMods (renderMods (mergeList (parseMods m.inner) name))
      = mergeList (parseMods m.inner) name :=
    parseMods_renderMods _ hL1ne (fun t ht => (htok t ht).1)
  set R := renderMods (mergeList (parseMods m.inner) name) with hR
  have hfdoc : mergeIntoModuleList doc name
      = pre ++ (modulesOpen ++ (R ++ ']' :: m.rest)) := by
    simp only [mergeIntoModuleList, hf]
    rw [← hR]
    simp [List.append_assoc]
  have hmatch2 : matchAt (modulesOpen ++ (R ++ ']' :: m.rest))
      = some ⟨[], [' '], R, m.rest⟩ := by
    have hb := matchAt_build [] [' '] R m.rest (by simp)
      (by intro c hc; simp at hc; rw [hc]; exact isWs_space) hRbr
    simpa [modulesOpen_eq, List.append_assoc] using hb
  have hnone2 : ∀ p1 p2, pre = p1 ++ p2 → p2 ≠ [] →
      matchAt (p2 ++ (modulesOpen ++ (R ++ ']' :: m.rest))) = none := by
    intro p1 p2 hs hne
    have hold := hnone p1 p2 hs hne
    rw [matchText_append_rest] at hold
    have htr := matchAt_none_transfer p2 m.ws1 m.ws2 m.inner m.rest R hne hw1 hw2 hbr hold
    simpa [modulesOpen_eq, List.append_assoc] using htr
  have hff2 : findFirst (pre ++ (modulesOpen ++ (R ++ ']' :: m.rest)))
      = some (pre, ⟨[], [' '], R, m.rest⟩) :=
    findFirst_build pre hmatch2 hnone2
  rw [hfdoc]
  simp only [modListOf, hff2]
  exact hround

/-- C7: for every document whose module list is exactly a then b, merging
b leaves the module list unchanged and merging c appends it; and on the
concrete array text of the spec scenario, merging pinia produces exactly
the expected serialized array. -/
theorem c7_merge_scenarios :
    (∀ doc : List Char, modListOf doc = ["a".toList, "b".toList] →
      modListOf (mergeIntoModuleList doc ("b").toList) = ["a".toList, "b".toList] ∧
      modListOf (mergeIntoModuleList doc ("c").toList)
        = ["a".toList, "b".toList, "c".toList]) ∧
    modListOf docAB = ["a".toList, "b".toList] ∧
    mergeIntoModuleList docAB ("b").toList = ("modules: [\x27a\x27, \x27b\x27]").toList ∧
    mergeIntoModuleList docIcons ("pinia").toList
      = ("modules: [\x27@x/image\x27, \x27@x/icon\x27, \x27pinia\x27]").toList := by
  refine ⟨?_, by decide, by decide, by decide⟩
  intro doc h
  cases hf : findFirst doc with
  | none =>
    exfalso
    simp only [modListOf, hf] at h
    cases h
  | some pm =>
    obtain ⟨pre, m⟩ := pm
    have hm : parseMods m.inner = ["a".toList, "b".toList] := by
      have h' := h
      simp only [modListOf, hf] at h'
      exact h'
    constructor
    · rw [modListOf_merge doc ("b").toList (by decide) hf, hm]
      decide
    · rw [modListOf_merge doc ("c").toList (by decide) hf, hm]
      decide

theorem c7_merge_scenarios_witness :
    modListOf docAB = ["a".toList, "b".toList] ∧
    (modListOf (mergeIntoModuleList docAB ("b").toList) = ["a".toList, "b".toList] ∧
      modListOf (mergeIntoModuleList docAB ("c").toList)
        = ["a".toList, "b".toList, "c".toList]) :=
  ⟨by decide, c7_merge_scenarios.1 docAB (by decide)⟩

end Scaffolder
